import Mathlib

/-!
Verification of the repository's two modules.

`Task1` models `task_1.py`: range-sum queries over a list, with and without
a memoizing cache.  The cached helper `_cached_sum` is keyed on
`(array_id, L, R)` but its body reads the module-global `array` variable;
we model that global as an explicit `globalArray` argument and the memo
table as an explicit association list threaded through the calls (the
`lru_cache` decorator's eviction at `maxsize=1000` only forgets entries,
which the model represents by starting from a smaller cache, so it never
changes a returned value).

`Task2` models `task_2.py`: a splay tree with parent pointers
(`Node`, `SplayTree._rotate`, `SplayTree._splay`, `SplayTree.insert`,
`SplayTree.search`) and the memoized Fibonacci evaluator
`fibonacci_splay`.  Python objects linked by pointers are modelled by a
heap `Nat → Option Node` of node records addressed by ids, and each
`while` loop becomes a fuel-indexed recursion whose fuel is large enough
for every well-formed tree (proved below).  An abstract layer of pure
binary trees (`BT`) and zipper contexts (`Frame`) is related to the heap
by a representation relation `Rep`, and the imperative operations are
proved to simulate pure ones on that layer.
-/

namespace Task1

/-- Python's `sum(a[L:R+1])`: the slice keeps indices `L..R` (clamped to
the list), then sums. -/
def sliceSum (a : List Int) (L R : Nat) : Int :=
  (((a.drop L).take (R + 1 - L)).sum)

/-- `range_sum_no_cache(array, L, R)`: `return sum(array[L:R+1])`. -/
def range_sum_no_cache (a : List Int) (L R : Nat) : Int :=
  sliceSum a L R

/-- `update_no_cache(array, index, value)`: `array[index] = value`. -/
def update_no_cache (a : List Int) (index : Nat) (value : Int) : List Int :=
  a.set index value

/-- The memo table of the `lru_cache` on `_cached_sum`, keyed on
`(array_id, L, R)`. -/
abbrev Cache := List ((Nat × Nat × Nat) × Int)

/-- `_cached_sum(array_id, L, R)`: on a memo hit return the stored value;
on a miss `return sum(array[L:R+1])` where `array` is the module-global
list (here the explicit `globalArray` argument), recording the result. -/
def _cached_sum (globalArray : List Int) (c : Cache) (array_id L R : Nat) :
    Int × Cache :=
  match List.lookup (array_id, L, R) c with
  | some v => (v, c)
  | none =>
    let v := sliceSum globalArray L R
    (v, ((array_id, L, R), v) :: c)

/-- `range_sum_with_cache(array, L, R)`: `return _cached_sum(id(array), L, R)`.
The caller's list enters only through its identity `array_id` (Python's
`id(array)`); the summed elements come from the module-global list. -/
def range_sum_with_cache (globalArray : List Int) (c : Cache)
    (array_id L R : Nat) : Int × Cache :=
  _cached_sum globalArray c array_id L R

/-- `update_with_cache(array, index, value)`: set the element and clear the
whole memo table (`_cached_sum.cache_clear()`). -/
def update_with_cache (a : List Int) (_c : Cache) (index : Nat) (value : Int) :
    List Int × Cache :=
  (a.set index value, [])

/-- Every value stored in the memo table is the slice sum of the current
global array — true initially (empty table) and re-established by
`update_with_cache`, which clears the table whenever the array changes. -/
def cacheConsistent (globalArray : List Int) (c : Cache) : Prop :=
  ∀ aid L R v, List.lookup (aid, L, R) c = some v → v = sliceSum globalArray L R

end Task1

namespace Task2

/-- One abstract binary tree node: the id names the heap cell holding it,
so the pure tree also records where each node lives. -/
inductive BT : Type where
  | nil : BT
  | node (id : Nat) (l : BT) (key : Int) (val : Int) (r : BT) : BT
  deriving Repr, DecidableEq

namespace BT

/-- Heap address of the root node (`none` for the empty tree). -/
def rootId : BT → Option Nat
  | nil => none
  | node i _ _ _ _ => some i

/-- Key at the root. -/
def rootKey : BT → Option Int
  | nil => none
  | node _ _ k _ _ => some k

/-- Value at the root. -/
def rootVal : BT → Option Int
  | nil => none
  | node _ _ _ v _ => some v

/-- All heap addresses used by the tree, root first. -/
def ids : BT → List Nat
  | nil => []
  | node i l _ _ r => i :: (l.ids ++ r.ids)

/-- Number of nodes. -/
def size : BT → Nat
  | nil => 0
  | node _ l _ _ r => l.size + r.size + 1

/-- In-order traversal as a key/value list. -/
def inorder : BT → List (Int × Int)
  | nil => []
  | node _ l k v r => l.inorder ++ (k, v) :: r.inorder

/-- In-order key list. -/
def keys (b : BT) : List Int := b.inorder.map Prod.fst

/-- Overwrite the value stored at the root node (used by the
`insert`-on-existing-key path, Python's `node.val = val`). -/
def setValRoot : BT → Int → BT
  | nil, _ => nil
  | node i l k _ r, v => node i l k v r

/-- The spec's BST ordering invariant, stated exactly as written: for
every node, all keys in its left subtree are strictly less than its key,
and all keys in its right subtree are strictly greater. -/
def specBST : BT → Prop
  | nil => True
  | node _ l k _ r =>
      (∀ a ∈ l.keys, a < k) ∧ (∀ a ∈ r.keys, k < a) ∧ l.specBST ∧ r.specBST

instance specBST.dec : (b : BT) → Decidable b.specBST
  | nil => isTrue trivial
  | node _ l k _ r =>
    have : Decidable l.specBST := specBST.dec l
    have : Decidable r.specBST := specBST.dec r
    decidable_of_iff
      ((∀ a ∈ l.keys, a < k) ∧ (∀ a ∈ r.keys, k < a) ∧ l.specBST ∧ r.specBST)
      Iff.rfl

end BT

/-- One step of a zipper context: the parent node's data together with the
side (`dir = true` means the focus hangs on the parent's left) and the
sibling subtree. -/
structure Frame where
  dir : Bool
  id : Nat
  key : Int
  val : Int
  sib : BT
  deriving Repr, DecidableEq

/-- Rebuild the parent node from a frame and the focused subtree. -/
def frameNode (f : Frame) (b : BT) : BT :=
  if f.dir then .node f.id b f.key f.val f.sib else .node f.id f.sib f.key f.val b

/-- Rebuild the whole tree from a focused subtree and its context
(innermost frame first). -/
def plug : BT → List Frame → BT
  | b, [] => b
  | b, f :: fs => plug (frameNode f b) fs

/-- Heap address the focus's parent pointer must hold. -/
def ctxPP : List Frame → Option Nat
  | [] => none
  | f :: _ => some f.id

/-- Heap addresses owned by a context. -/
def ctxIds : List Frame → List Nat
  | [] => []
  | f :: fs => f.id :: (f.sib.ids ++ ctxIds fs)

/-- Key/value pairs of the context that lie to the left of the focus in
in-order position. -/
def ctxLeftP : List Frame → List (Int × Int)
  | [] => []
  | f :: fs =>
    if f.dir then ctxLeftP fs else ctxLeftP fs ++ (f.sib.inorder ++ [(f.key, f.val)])

/-- Key/value pairs of the context that lie to the right of the focus in
in-order position. -/
def ctxRightP : List Frame → List (Int × Int)
  | [] => []
  | f :: fs =>
    if f.dir then ((f.key, f.val) :: f.sib.inorder) ++ ctxRightP fs else ctxRightP fs

/-- Effect of `_rotate(x)` on the shape: the focus `X` (rooted at `x`)
absorbs its parent frame `f`, the parent becoming a child of `x` on the
appropriate side. -/
def rotStep (X : BT) (f : Frame) : BT :=
  match X with
  | .nil => .nil
  | .node x a xk xv b =>
    if f.dir then .node x a xk xv (.node f.id b f.key f.val f.sib)
    else .node x (.node f.id f.sib f.key f.val a) xk xv b

/-- Effect of the `_splay(x)` loop on the shape: consume the context one
frame (zig, at the root) or two frames (zig-zig / zig-zag) per iteration
until the focus is the root. -/
def splayF : BT → List Frame → BT
  | X, [] => X
  | X, [f] => rotStep X f
  | X, f1 :: f2 :: ctx =>
    if f1.dir = f2.dir then
      splayF (rotStep X { f1 with sib := frameNode f2 f1.sib }) ctx
    else
      splayF (rotStep (rotStep X f1) f2) ctx

/-- Result of the shared descent loop of `insert` and `search`: an exact
key match (as a focused zipper), a fall-off at an absent child (the
last-visited node, as a focused zipper), or an empty tree. -/
inductive FRes : Type where
  | found (X : BT) (ctx : List Frame) : FRes
  | missRoot : FRes
  | miss (X : BT) (ctx : List Frame) : FRes
  deriving Repr, DecidableEq

/-- Pure version of the descent loops of `insert`/`search`: compare at
the focus, push a frame, and recurse; falling off the tree reconstructs
the last-visited node as the new focus. -/
def findZ (k : Int) : BT → List Frame → FRes
  | .nil, [] => .missRoot
  | .nil, f :: ctx => .miss (frameNode f .nil) ctx
  | .node i l key v r, ctx =>
    if k < key then findZ k l (⟨true, i, key, v, r⟩ :: ctx)
    else if key < k then findZ k r (⟨false, i, key, v, l⟩ :: ctx)
    else .found (.node i l key v r) ctx

/-- Heap address of the root of the rebuilt tree `plug b ctx` (the
outermost frame's node, or the focus when the context is empty). -/
def topRootId : BT → List Frame → Option Nat
  | b, [] => b.rootId
  | b, f :: fs => topRootId (frameNode f b) fs

/-- Multiset of heap addresses of a tree (for ownership accounting). -/
def BT.idsM : BT → Multiset Nat
  | .nil => 0
  | .node i l _ _ r => i ::ₘ (l.idsM + r.idsM)

/-- Multiset of heap addresses owned by a context. -/
def ctxIdsM : List Frame → Multiset Nat
  | [] => 0
  | f :: fs => f.id ::ₘ (f.sib.idsM + ctxIdsM fs)

/-- The Python `Node` object: `key`, `val`, and the `left`, `right`,
`parent` pointers, here heap addresses. -/
structure Node where
  key : Int
  val : Int
  left : Option Nat
  right : Option Nat
  parent : Option Nat
  deriving Repr, DecidableEq

/-- The Python `SplayTree` object: the node heap (object identity ↦
object state), the `root` pointer, and the next fresh address used when
a `Node(...)` is constructed. -/
structure SplayTree where
  heap : Nat → Option Node
  root : Option Nat
  nextId : Nat

/-- Mutate `left` of the node at address `i` (Python `n.left = c`). -/
def setLeft (h : Nat → Option Node) (i : Nat) (c : Option Nat) : Nat → Option Node :=
  fun j => if j = i then (h i).map (fun n => { n with left := c }) else h j

/-- Mutate `right` of the node at address `i` (Python `n.right = c`). -/
def setRight (h : Nat → Option Node) (i : Nat) (c : Option Nat) : Nat → Option Node :=
  fun j => if j = i then (h i).map (fun n => { n with right := c }) else h j

/-- Mutate `parent` of the node at address `i` (Python `n.parent = p`). -/
def setParent (h : Nat → Option Node) (i : Nat) (p : Option Nat) : Nat → Option Node :=
  fun j => if j = i then (h i).map (fun n => { n with parent := p }) else h j

/-- Mutate `val` of the node at address `i` (Python `n.val = v`). -/
def setVal (h : Nat → Option Node) (i : Nat) (v : Int) : Nat → Option Node :=
  fun j => if j = i then (h i).map (fun n => { n with val := v }) else h j

/-- The pointer mutations of `_rotate(x)` once `p` (and `g = p.parent`)
are read: `p.left = b = x.right; x.right = p` when `x is p.left`,
mirrored otherwise; then `b.parent = p` when `b` exists, `x.parent = g`,
`p.parent = x`.  `xn`/`pn` are the records of `x`/`p` as read before any
mutation, exactly as Python reads the objects. -/
def rotateCore (h : Nat → Option Node) (x p : Nat) (xn pn : Node) (g : Option Nat) :
    Nat → Option Node :=
  let isLeft := pn.left = some x
  let b := if isLeft then xn.right else xn.left
  let h1 := if isLeft then setRight (setLeft h p b) x (some p)
            else setLeft (setRight h p b) x (some p)
  let h2 := match b with
            | some bi => setParent h1 bi (some p)
            | none => h1
  let h3 := setParent h2 x g
  setParent h3 p (some x)

/-- `SplayTree._rotate(x)`, step for step: read `p = x.parent` (return if
absent) and `g = p.parent`; perform the pointer mutations of
`rotateCore`; finally hang `x` under `g` on the side `p` occupied, or
make `x` the root when `g` is absent.  A dangling address (no record in
the heap) would be an `AttributeError` in Python; those branches return
the tree unchanged and are unreachable for well-formed trees. -/
def SplayTree.rotate (t : SplayTree) (x : Nat) : SplayTree :=
  match t.heap x with
  | none => t
  | some xn =>
    match xn.parent with
    | none => t
    | some p =>
      match t.heap p with
      | none => t
      | some pn =>
        let g := pn.parent
        let h4 := rotateCore t.heap x p xn pn g
        match g with
        | none => { heap := h4, root := some x, nextId := t.nextId }
        | some gi =>
          match h4 gi with
          | none => { t with heap := h4 }
          | some gn =>
            if gn.left = some p then { t with heap := setLeft h4 gi (some x) }
            else { t with heap := setRight h4 gi (some x) }

/-- The body of `SplayTree._splay(x)`'s `while x.parent:` loop, indexed
by fuel: read `p = x.parent` and `g = p.parent`; a single rotation when
`g` is absent (zig), `rotate(p); rotate(x)` when `(x is p.left) == (p is
g.left)` (zig-zig), else `rotate(x); rotate(x)` (zig-zag).  The loop of
the source runs without fuel; `splayLoop` is proved below to exit before
exhausting its fuel on every well-formed tree. -/
def splayLoop : Nat → SplayTree → Nat → SplayTree
  | 0, t, _ => t
  | fuel + 1, t, x =>
    match t.heap x with
    | none => t
    | some xn =>
      match xn.parent with
      | none => t
      | some p =>
        match t.heap p with
        | none => t
        | some pn =>
          match pn.parent with
          | none => splayLoop fuel (t.rotate x) x
          | some g =>
            match t.heap g with
            | none => t
            | some gn =>
              if (pn.left = some x) = (gn.left = some p) then
                splayLoop fuel ((t.rotate p).rotate x) x
              else
                splayLoop fuel ((t.rotate x).rotate x) x

/-- `SplayTree._splay(x)`: run the loop with enough fuel for any tree
whose node addresses all lie below `nextId`. -/
def SplayTree.splay (t : SplayTree) (x : Nat) : SplayTree :=
  splayLoop t.nextId t x

/-- Result of the descent loops shared by `insert` (`parent` variable)
and `search` (`last` variable): both loops walk from the root comparing
keys, remembering the most recently visited node. `stuck` is the
out-of-fuel case, unreachable for well-formed trees. -/
inductive FindRes : Type where
  | found (i : Nat) : FindRes
  | notFound (last : Option Nat) : FindRes
  | stuck : FindRes
  deriving Repr, DecidableEq

/-- The `while node:` descent of `insert`/`search`: at each node compare
`key` with `node.key` and move to the left or right child, remembering
the node just visited; report the exact match or the fall-off. -/
def descend (h : Nat → Option Node) (key : Int) : Nat → Option Nat → Option Nat → FindRes
  | 0, _, _ => .stuck
  | _ + 1, none, last => .notFound last
  | fuel + 1, some i, _ =>
    match h i with
    | none => .stuck
    | some n =>
      if key < n.key then descend h key fuel n.left (some i)
      else if n.key < key then descend h key fuel n.right (some i)
      else .found i

/-- `SplayTree.insert(key, val)`: an empty tree just gets a fresh root
node; otherwise descend (`node`/`parent` loop).  On an exact match
overwrite `node.val` and splay that node; on a fall-off construct
`Node(key, val)` at a fresh address, link `new_node.parent = parent` and
the matching child pointer of `parent`, and splay the new node. -/
def SplayTree.insert (t : SplayTree) (key val : Int) : SplayTree :=
  match t.root with
  | none =>
    { heap := fun j => if j = t.nextId then some ⟨key, val, none, none, none⟩ else t.heap j,
      root := some t.nextId, nextId := t.nextId + 1 }
  | some _ =>
    match descend t.heap key (t.nextId + 1) t.root none with
    | .found i => SplayTree.splay { t with heap := setVal t.heap i val } i
    | .notFound none => t
    | .notFound (some pid) =>
      match t.heap pid with
      | none => t
      | some pn =>
        let nid := t.nextId
        let h1 : Nat → Option Node :=
          fun j => if j = nid then some ⟨key, val, none, none, some pid⟩ else t.heap j
        let h2 := if key < pn.key then setLeft h1 pid (some nid)
                  else setRight h1 pid (some nid)
        SplayTree.splay { heap := h2, root := t.root, nextId := nid + 1 } nid
    | .stuck => t

/-- `SplayTree.search(key)`: descend (`node`/`last` loop); on an exact
match splay the node and return it, otherwise splay the last accessed
node (when any) and return `None`.  The returned node is its heap
address here. -/
def SplayTree.search (t : SplayTree) (key : Int) : SplayTree × Option Nat :=
  match descend t.heap key (t.nextId + 1) t.root none with
  | .found i => (t.splay i, some i)
  | .notFound none => (t, none)
  | .notFound (some l) => (t.splay l, none)
  | .stuck => (t, none)

/-- A `SplayTree` before `__init__` runs: no nodes at all. -/
def SplayTree.empty : SplayTree :=
  { heap := fun _ => none, root := none, nextId := 0 }

/-- `SplayTree.__init__`: start empty, then pre-seed the base Fibonacci
values with `insert(0, 0)` and `insert(1, 1)`. -/
def SplayTree.init : SplayTree :=
  (SplayTree.empty.insert 0 0).insert 1 1

/-- Read `node.val` at a heap address (0 for a dangling address, which
cannot occur for addresses returned by `search`). -/
def getVal (t : SplayTree) (i : Nat) : Int :=
  match t.heap i with
  | some n => n.val
  | none => 0

/-- `fibonacci_splay(n, tree)`: below 2 return `n`; otherwise
`tree.search(n)` and return the stored value on a hit; on a miss
recurse on `n-1` then `n-2` against the same tree, insert the sum,
and return it. -/
def fibonacci_splay : Nat → SplayTree → Int × SplayTree
  | 0, t => (0, t)
  | 1, t => (1, t)
  | n + 2, t =>
    let s := t.search ((n : Int) + 2)
    match s.2 with
    | some i => (getVal s.1 i, s.1)
    | none =>
      let r1 := fibonacci_splay (n + 1) s.1
      let r2 := fibonacci_splay n r1.2
      let v := r1.1 + r2.1
      (v, (r2.2).insert ((n : Int) + 2) v)

/-- Key stored at the tree's root node, read off the heap. -/
def rootKeyOf (t : SplayTree) : Option Int :=
  match t.root with
  | some r => (t.heap r).map Node.key
  | none => none

/-- Decode the pointer structure reachable from `r` back into a pure
tree, with fuel (`none` on dangling pointers or exhausted fuel); used to
state concrete-scenario results. -/
def decodeBT (h : Nat → Option Node) : Nat → Option Nat → Option BT
  | _, none => some .nil
  | 0, some _ => none
  | fuel + 1, some i =>
    match h i with
    | none => none
    | some n =>
      match decodeBT h fuel n.left, decodeBT h fuel n.right with
      | some l, some r => some (.node i l n.key n.val r)
      | _, _ => none

/-- The heap faithfully stores tree `b` under parent pointer `pp`: each
node's record holds its key, value, the root addresses of its subtrees,
and its parent's address. -/
inductive Rep (h : Nat → Option Node) : Option Nat → BT → Prop where
  | nil {pp : Option Nat} : Rep h pp .nil
  | node {pp : Option Nat} {i : Nat} {l r : BT} {k v : Int} :
      h i = some ⟨k, v, l.rootId, r.rootId, pp⟩ →
      Rep h (some i) l →
      Rep h (some i) r →
      Rep h pp (.node i l k v r)

/-- The heap faithfully stores a context chain: the innermost frame's
node has the focus (whose root address is `hid`) as its `dir`-side child,
its sibling subtree on the other side, and the next frame's node as
parent. -/
inductive RepCtx (h : Nat → Option Node) : Option Nat → List Frame → Prop where
  | nil {hid : Option Nat} : RepCtx h hid []
  | cons {hid : Option Nat} {f : Frame} {fs : List Frame} :
      h f.id = some ⟨f.key, f.val,
        (if f.dir then hid else f.sib.rootId),
        (if f.dir then f.sib.rootId else hid),
        ctxPP fs⟩ →
      Rep h (some f.id) f.sib →
      RepCtx h (some f.id) fs →
      RepCtx h hid (f :: fs)

/-- The whole well-formedness invariant of a tree state, relative to a
decomposition into a focused subtree `b` and its context `ctx`: the heap
represents both parts, the `root` pointer names the rebuilt tree's root,
the node addresses are pairwise distinct, and all of them are below
`nextId` (so fresh allocations never collide). -/
structure TreeRepAt (t : SplayTree) (b : BT) (ctx : List Frame) : Prop where
  rep : Rep t.heap (ctxPP ctx) b
  rctx : RepCtx t.heap b.rootId ctx
  root : t.root = topRootId b ctx
  nodup : (b.idsM + ctxIdsM ctx).Nodup
  bound : ∀ j ∈ b.idsM + ctxIdsM ctx, j < t.nextId

/-- Well-formedness of a whole tree state: the focus is the root. -/
def TreeRep (t : SplayTree) (b : BT) : Prop := TreeRepAt t b []

/-- Parent-pointer consistency over a set of addresses, as the spec
states it: the root's parent reference is absent, and every other listed
node is referenced by exactly one child pointer of its parent. -/
def ParentConsistent (t : SplayTree) (l : Multiset Nat) : Prop :=
  (∀ r n, t.root = some r → t.heap r = some n → n.parent = none) ∧
  ∀ i ∈ l, t.root ≠ some i → ∀ n, t.heap i = some n →
    ∃ p pn, n.parent = some p ∧ t.heap p = some pn ∧
      ((pn.left = some i ∧ pn.right ≠ some i) ∨
       (pn.right = some i ∧ pn.left ≠ some i))

/-- A concrete two-node state (root key 3 at address 1 with the key-5
node at address 0 as right child), used to instantiate the general
theorems on explicit inputs. -/
def exTree2 : SplayTree :=
  { heap := fun j =>
      if j = 0 then some ⟨5, 7, none, none, some 1⟩
      else if j = 1 then some ⟨3, 4, none, some 0, none⟩
      else none,
    root := some 1, nextId := 2 }

/-! ### Pure-layer lemmas -/

theorem frameNode_inorder (f : Frame) (b : BT) :
    (frameNode f b).inorder =
      if f.dir then b.inorder ++ (f.key, f.val) :: f.sib.inorder
      else f.sib.inorder ++ (f.key, f.val) :: b.inorder := by
  cases hd : f.dir <;> simp [frameNode, hd, BT.inorder]

theorem frameNode_rootId (f : Frame) (b : BT) :
    (frameNode f b).rootId = some f.id := by
  cases hd : f.dir <;> simp [frameNode, hd, BT.rootId]

theorem frameNode_idsM (f : Frame) (b : BT) :
    (frameNode f b).idsM = f.id ::ₘ (b.idsM + f.sib.idsM) := by
  cases hd : f.dir <;> simp [frameNode, hd, BT.idsM, add_comm]

theorem inorder_plug : ∀ (ctx : List Frame) (b : BT),
    (plug b ctx).inorder = ctxLeftP ctx ++ (b.inorder ++ ctxRightP ctx)
  | [], b => by simp [plug, ctxLeftP, ctxRightP]
  | f :: fs, b => by
    cases hd : f.dir <;>
      simp [plug, inorder_plug fs, frameNode_inorder, hd, ctxLeftP, ctxRightP]

theorem idsM_plug : ∀ (ctx : List Frame) (b : BT),
    (plug b ctx).idsM = b.idsM + ctxIdsM ctx
  | [], b => by simp [plug, ctxIdsM]
  | f :: fs, b => by
    simp only [plug, idsM_plug fs, frameNode_idsM, ctxIdsM]
    simp [Multiset.cons_swap, add_comm, add_left_comm, add_assoc]

theorem topRootId_indep : ∀ (fs : List Frame) (f : Frame) (b b' : BT),
    topRootId b (f :: fs) = topRootId b' (f :: fs)
  | [], f, b, b' => by simp [topRootId, frameNode_rootId]
  | g :: fs, f, b, b' => by
    simp only [topRootId]
    exact topRootId_indep fs g (frameNode f b) (frameNode f b')

theorem topRootId_congr {b b' : BT} (h : b.rootId = b'.rootId) :
    ∀ ctx : List Frame, topRootId b ctx = topRootId b' ctx
  | [] => h
  | f :: fs => topRootId_indep fs f b b'

theorem rotStep_rootId (x : Nat) (a : BT) (xk xv : Int) (b : BT) (f : Frame) :
    (rotStep (.node x a xk xv b) f).rootId = some x := by
  cases hd : f.dir <;> simp [rotStep, hd, BT.rootId]

theorem rotStep_inorder (x : Nat) (a : BT) (xk xv : Int) (b : BT) (f : Frame) :
    (rotStep (.node x a xk xv b) f).inorder = (frameNode f (.node x a xk xv b)).inorder := by
  cases hd : f.dir <;> simp [rotStep, frameNode, hd, BT.inorder]

theorem rotStep_idsM (x : Nat) (a : BT) (xk xv : Int) (b : BT) (f : Frame) :
    (rotStep (.node x a xk xv b) f).idsM = (frameNode f (.node x a xk xv b)).idsM := by
  cases hd : f.dir <;>
    simp only [rotStep, frameNode, hd, BT.idsM, if_true, if_false, Bool.false_eq_true,
      ite_true, ite_false] <;>
    simp [← Multiset.singleton_add, add_comm, add_left_comm, add_assoc]

theorem rotStep_shape (x : Nat) (a : BT) (xk xv : Int) (b : BT) (f : Frame) :
    ∃ a' b', rotStep (.node x a xk xv b) f = .node x a' xk xv b' := by
  cases hd : f.dir
  · exact ⟨.node f.id f.sib f.key f.val a, b, by simp [rotStep, hd]⟩
  · exact ⟨a, .node f.id b f.key f.val f.sib, by simp [rotStep, hd]⟩

theorem frameNode_inorder_congr {b b' : BT} (f : Frame)
    (h : b.inorder = b'.inorder) :
    (frameNode f b).inorder = (frameNode f b').inorder := by
  simp [frameNode_inorder, h]

theorem frameNode_idsM_congr {b b' : BT} (f : Frame)
    (h : b.idsM = b'.idsM) :
    (frameNode f b).idsM = (frameNode f b').idsM := by
  simp [frameNode_idsM, h]

theorem splayF_shape : ∀ (ctx : List Frame) (x : Nat) (a : BT) (xk xv : Int) (b : BT),
    ∃ a' b', splayF (.node x a xk xv b) ctx = .node x a' xk xv b'
  | [], x, a, xk, xv, b => ⟨a, b, rfl⟩
  | [f], x, a, xk, xv, b => rotStep_shape x a xk xv b f
  | f1 :: f2 :: ctx, x, a, xk, xv, b => by
    simp only [splayF]
    by_cases hd : f1.dir = f2.dir
    · rw [if_pos hd]
      obtain ⟨a', b', h⟩ := rotStep_shape x a xk xv b { f1 with sib := frameNode f2 f1.sib }
      rw [h]; exact splayF_shape ctx x a' xk xv b'
    · rw [if_neg hd]
      obtain ⟨a', b', h1⟩ := rotStep_shape x a xk xv b f1
      rw [h1]
      obtain ⟨a'', b'', h2⟩ := rotStep_shape x a' xk xv b' f2
      rw [h2]; exact splayF_shape ctx x a'' xk xv b''

theorem splayF_inorder : ∀ (ctx : List Frame) (x : Nat) (a : BT) (xk xv : Int) (b : BT),
    (splayF (.node x a xk xv b) ctx).inorder = (plug (.node x a xk xv b) ctx).inorder
  | [], x, a, xk, xv, b => rfl
  | [f], x, a, xk, xv, b => by
    simpa [plug] using rotStep_inorder x a xk xv b f
  | f1 :: f2 :: ctx, x, a, xk, xv, b => by
    simp only [splayF]
    by_cases hd : f1.dir = f2.dir
    · rw [if_pos hd]
      obtain ⟨a', b', h⟩ := rotStep_shape x a xk xv b { f1 with sib := frameNode f2 f1.sib }
      rw [h]
      rw [splayF_inorder ctx x a' xk xv b']
      show (plug (BT.node x a' xk xv b') ctx).inorder
        = (plug (frameNode f2 (frameNode f1 (.node x a xk xv b))) ctx).inorder
      rw [inorder_plug, inorder_plug, ← h, rotStep_inorder]
      cases hd1 : f1.dir <;> rw [hd1] at hd <;>
        simp [frameNode_inorder, hd1, ← hd]
    · rw [if_neg hd]
      obtain ⟨a', b', h1⟩ := rotStep_shape x a xk xv b f1
      obtain ⟨a'', b'', h2⟩ := rotStep_shape x a' xk xv b' f2
      rw [h1, h2]
      rw [splayF_inorder ctx x a'' xk xv b'']
      show (plug (BT.node x a'' xk xv b'') ctx).inorder
        = (plug (frameNode f2 (frameNode f1 (.node x a xk xv b))) ctx).inorder
      rw [inorder_plug, inorder_plug, ← h2, rotStep_inorder,
        frameNode_inorder_congr f2 (show (BT.node x a' xk xv b').inorder
          = (frameNode f1 (BT.node x a xk xv b)).inorder by
            rw [← h1, rotStep_inorder])]

theorem splayF_idsM : ∀ (ctx : List Frame) (x : Nat) (a : BT) (xk xv : Int) (b : BT),
    (splayF (.node x a xk xv b) ctx).idsM = (plug (.node x a xk xv b) ctx).idsM
  | [], x, a, xk, xv, b => rfl
  | [f], x, a, xk, xv, b => by
    simpa [plug] using rotStep_idsM x a xk xv b f
  | f1 :: f2 :: ctx, x, a, xk, xv, b => by
    simp only [splayF]
    by_cases hd : f1.dir = f2.dir
    · rw [if_pos hd]
      obtain ⟨a', b', h⟩ := rotStep_shape x a xk xv b { f1 with sib := frameNode f2 f1.sib }
      rw [h]
      rw [splayF_idsM ctx x a' xk xv b']
      show (plug (BT.node x a' xk xv b') ctx).idsM
        = (plug (frameNode f2 (frameNode f1 (.node x a xk xv b))) ctx).idsM
      rw [idsM_plug, idsM_plug, ← h, rotStep_idsM]
      cases hd1 : f1.dir <;> rw [hd1] at hd <;>
        simp only [frameNode_idsM, ← hd] <;>
        simp [← Multiset.singleton_add, add_comm, add_left_comm, add_assoc]
    · rw [if_neg hd]
      obtain ⟨a', b', h1⟩ := rotStep_shape x a xk xv b f1
      obtain ⟨a'', b'', h2⟩ := rotStep_shape x a' xk xv b' f2
      rw [h1, h2]
      rw [splayF_idsM ctx x a'' xk xv b'']
      show (plug (BT.node x a'' xk xv b'') ctx).idsM
        = (plug (frameNode f2 (frameNode f1 (.node x a xk xv b))) ctx).idsM
      rw [idsM_plug, idsM_plug, ← h2, rotStep_idsM,
        frameNode_idsM_congr f2 (show (BT.node x a' xk xv b').idsM
          = (frameNode f1 (BT.node x a xk xv b)).idsM by
            rw [← h1, rotStep_idsM])]

theorem keys_node (i : Nat) (l : BT) (k v : Int) (r : BT) :
    (BT.node i l k v r).keys = l.keys ++ k :: r.keys := by
  simp [BT.keys, BT.inorder]

/-- The spec's per-node BST condition is equivalent to the in-order key
sequence being strictly sorted. -/
theorem specBST_iff_sorted : ∀ b : BT, b.specBST ↔ b.keys.Sorted (· < ·)
  | .nil => by simp [BT.specBST, BT.keys, BT.inorder]
  | .node i l k v r => by
    rw [keys_node]
    simp only [BT.specBST, List.Sorted, List.pairwise_append, List.pairwise_cons,
      List.mem_cons]
    constructor
    · rintro ⟨hl, hr, bl, br⟩
      have hl' := (specBST_iff_sorted l).1 bl
      have hr' := (specBST_iff_sorted r).1 br
      refine ⟨hl', ⟨fun b hb => hr b hb, hr'⟩, ?_⟩
      rintro a ha c (rfl | hc)
      · exact hl a ha
      · exact lt_trans (hl a ha) (hr c hc)
    · rintro ⟨hl', ⟨hr, hr'⟩, hcross⟩
      exact ⟨fun a ha => hcross a ha k (Or.inl rfl),
        fun a ha => hr a ha,
        (specBST_iff_sorted l).2 hl',
        (specBST_iff_sorted r).2 hr'⟩

theorem specBST_keys_nodup {b : BT} (h : b.specBST) : b.keys.Nodup := by
  have := (specBST_iff_sorted b).1 h
  exact this.imp (fun hlt => ne_of_lt hlt)

theorem plug_frame_true (i : Nat) (key v : Int) (r : BT) (b : BT) (ctx : List Frame) :
    plug b (⟨true, i, key, v, r⟩ :: ctx) = plug (.node i b key v r) ctx := by
  simp [plug, frameNode]

theorem plug_frame_false (i : Nat) (key v : Int) (l : BT) (b : BT) (ctx : List Frame) :
    plug b (⟨false, i, key, v, l⟩ :: ctx) = plug (.node i l key v b) ctx := by
  simp [plug, frameNode]

theorem findZ_missRoot (k : Int) : ∀ (X : BT) (ctx : List Frame),
    findZ k X ctx = .missRoot → X = .nil ∧ ctx = []
  | .nil, [], _ => ⟨rfl, rfl⟩
  | .nil, _ :: _, h => by simp [findZ] at h
  | .node i l key v r, ctx, h => by
    by_cases h1 : k < key
    · rw [findZ, if_pos h1] at h
      exact absurd (findZ_missRoot k l _ h).2 (by simp)
    · by_cases h2 : key < k
      · rw [findZ, if_neg h1, if_pos h2] at h
        exact absurd (findZ_missRoot k r _ h).2 (by simp)
      · rw [findZ, if_neg h1, if_neg h2] at h
        exact absurd h (by simp)

theorem findZ_mem_of_found (k : Int) : ∀ (X : BT) (ctx : List Frame) (X' : BT)
    (ctx' : List Frame), findZ k X ctx = .found X' ctx' → k ∈ X.keys
  | .nil, [], _, _, h => by simp [findZ] at h
  | .nil, _ :: _, _, _, h => by simp [findZ] at h
  | .node i l key v r, ctx, X', ctx', h => by
    rw [keys_node]
    by_cases h1 : k < key
    · rw [findZ, if_pos h1] at h
      exact List.mem_append_left _ (findZ_mem_of_found k l _ _ _ h)
    · by_cases h2 : key < k
      · rw [findZ, if_neg h1, if_pos h2] at h
        exact List.mem_append_right _ (List.mem_cons_of_mem _ (findZ_mem_of_found k r _ _ _ h))
      · have : k = key := le_antisymm (not_lt.1 h2) (not_lt.1 h1)
        subst this
        simp

theorem findZ_found_of_mem (k : Int) : ∀ (X : BT) (ctx : List Frame),
    X.specBST → k ∈ X.keys → ∃ X' ctx', findZ k X ctx = .found X' ctx'
  | .nil, _, _, hm => by simp [BT.keys, BT.inorder] at hm
  | .node i l key v r, ctx, hb, hm => by
    obtain ⟨hlk, hrk, hbl, hbr⟩ := hb
    by_cases h1 : k < key
    · have hml : k ∈ l.keys := by
        rw [keys_node] at hm
        rcases List.mem_append.1 hm with h | h
        · exact h
        · rcases List.mem_cons.1 h with rfl | h
          · exact absurd h1 (lt_irrefl _)
          · exact absurd (lt_trans h1 (hrk k h)) (lt_irrefl _)
      rw [findZ, if_pos h1]
      exact findZ_found_of_mem k l _ hbl hml
    · by_cases h2 : key < k
      · have hmr : k ∈ r.keys := by
          rw [keys_node] at hm
          rcases List.mem_append.1 hm with h | h
          · exact absurd (lt_trans (hlk k h) h2) (lt_irrefl _)
          · rcases List.mem_cons.1 h with rfl | h
            · exact absurd h2 (lt_irrefl _)
            · exact h
        rw [findZ, if_neg h1, if_pos h2]
        exact findZ_found_of_mem k r _ hbr hmr
      · exact ⟨_, _, by rw [findZ, if_neg h1, if_neg h2]⟩

/-- Full characterization of the descent: on an exact match the rebuilt
tree's in-order sequence splits as `A ++ (k, v) :: B` around the matched
node, with `A` strictly below and `B` strictly above `k`, and overwriting
the matched node's value only changes that middle pair; on a fall-off it
splits as `A ++ B` at the missing position, the last-visited node `P` has
an absent child exactly on `k`'s side, and hanging a fresh `(k, w)` leaf
there yields in-order `A ++ (k, w) :: B`. -/
theorem findZ_spec (k : Int) : ∀ (X : BT) (ctx : List Frame),
    X.specBST →
    (∀ a ∈ (ctxLeftP ctx).map Prod.fst, a < k) →
    (∀ a ∈ (ctxRightP ctx).map Prod.fst, k < a) →
    ((∀ X' ctx', findZ k X ctx = .found X' ctx' →
       ∃ (i : Nat) (l r : BT) (v : Int) (A B : List (Int × Int)),
         X' = .node i l k v r ∧
         (plug X ctx).inorder = A ++ (k, v) :: B ∧
         (∀ w, (plug (.node i l k w r) ctx').inorder = A ++ (k, w) :: B) ∧
         (∀ a ∈ A.map Prod.fst, a < k) ∧ (∀ a ∈ B.map Prod.fst, k < a)) ∧
     (∀ P ctx', findZ k X ctx = .miss P ctx' →
       ∃ (A B : List (Int × Int)),
         (plug X ctx).inorder = A ++ B ∧
         (∀ a ∈ A.map Prod.fst, a < k) ∧ (∀ a ∈ B.map Prod.fst, k < a) ∧
         ∃ (pid : Nat) (pl pr : BT) (pk pv : Int),
           P = .node pid pl pk pv pr ∧ k ≠ pk ∧
           plug P ctx' = plug X ctx ∧
           (k < pk → pl = .nil ∧
             ∀ (fresh : Nat) (w : Int),
               (plug (.node fresh .nil k w .nil)
                 (⟨true, pid, pk, pv, pr⟩ :: ctx')).inorder = A ++ (k, w) :: B) ∧
           (pk < k → pr = .nil ∧
             ∀ (fresh : Nat) (w : Int),
               (plug (.node fresh .nil k w .nil)
                 (⟨false, pid, pk, pv, pl⟩ :: ctx')).inorder = A ++ (k, w) :: B)))
  | .nil, [], _, _, _ => by
    constructor
    · intro X' ctx' h; simp [findZ] at h
    · intro P ctx' h; simp [findZ] at h
  | .nil, f :: cfs, _, hL, hR => by
    constructor
    · intro X' ctx' h; simp [findZ] at h
    · intro P ctx' h
      rw [findZ] at h
      injection h with h1 h2
      subst h1; subst h2
      refine ⟨ctxLeftP (f :: cfs), ctxRightP (f :: cfs), ?_, hL, hR, ?_⟩
      · rw [inorder_plug]; simp [BT.inorder]
      · cases f with
        | mk fdir fid fkey fval fsib =>
          cases fdir
          · -- the descent went right at this node, so its right child is absent
            have hklt : fkey < k := hL fkey (by simp [ctxLeftP])
            refine ⟨fid, fsib, .nil, fkey, fval, by simp [frameNode], ne_of_gt hklt,
              rfl, ?_, ?_⟩
            · intro hcon; exact absurd hcon (not_lt.2 (le_of_lt hklt))
            · refine fun _ => ⟨rfl, fun fresh w => ?_⟩
              rw [plug_frame_false, inorder_plug]
              simp [ctxLeftP, ctxRightP, BT.inorder]
          · -- the descent went left at this node, so its left child is absent
            have hkgt : k < fkey := hR fkey (by simp [ctxRightP])
            refine ⟨fid, .nil, fsib, fkey, fval, by simp [frameNode], ne_of_lt hkgt,
              rfl, ?_, ?_⟩
            · refine fun _ => ⟨rfl, fun fresh w => ?_⟩
              rw [plug_frame_true, inorder_plug]
              simp [ctxLeftP, ctxRightP, BT.inorder]
            · intro hcon; exact absurd hcon (not_lt.2 (le_of_lt hkgt))
  | .node i l key v r, ctx, hb, hL, hR => by
    obtain ⟨hlk, hrk, hbl, hbr⟩ := hb
    by_cases h1 : k < key
    · have hR' : ∀ a ∈ (ctxRightP (⟨true, i, key, v, r⟩ :: ctx)).map Prod.fst, k < a := by
        intro a ha
        rw [show ctxRightP (⟨true, i, key, v, r⟩ :: ctx)
            = (key, v) :: (r.inorder ++ ctxRightP ctx) from by simp [ctxRightP]] at ha
        simp only [List.map_cons, List.map_append, List.mem_cons, List.mem_append] at ha
        rcases ha with rfl | ha | ha
        · exact h1
        · exact lt_trans h1 (hrk a ha)
        · exact hR a ha
      have hL' : ∀ a ∈ (ctxLeftP (⟨true, i, key, v, r⟩ :: ctx)).map Prod.fst, a < k := by
        simpa [ctxLeftP] using hL
      have IH := findZ_spec k l (⟨true, i, key, v, r⟩ :: ctx) hbl hL' hR'
      rw [plug_frame_true] at IH
      constructor
      · intro X' ctx' h
        rw [findZ, if_pos h1] at h
        exact IH.1 X' ctx' h
      · intro P ctx' h
        rw [findZ, if_pos h1] at h
        exact IH.2 P ctx' h
    · by_cases h2 : key < k
      · have hL' : ∀ a ∈ (ctxLeftP (⟨false, i, key, v, l⟩ :: ctx)).map Prod.fst, a < k := by
          intro a ha
          rw [show ctxLeftP (⟨false, i, key, v, l⟩ :: ctx)
              = ctxLeftP ctx ++ (l.inorder ++ [(key, v)]) from by simp [ctxLeftP]] at ha
          simp only [List.map_append, List.mem_append, List.map_cons, List.map_nil,
            List.mem_singleton] at ha
          rcases ha with ha | ha | rfl
          · exact hL a ha
          · exact lt_trans (hlk a ha) h2
          · exact h2
        have hR' : ∀ a ∈ (ctxRightP (⟨false, i, key, v, l⟩ :: ctx)).map Prod.fst, k < a := by
          simpa [ctxRightP] using hR
        have IH := findZ_spec k r (⟨false, i, key, v, l⟩ :: ctx) hbr hL' hR'
        rw [plug_frame_false] at IH
        constructor
        · intro X' ctx' h
          rw [findZ, if_neg h1, if_pos h2] at h
          exact IH.1 X' ctx' h
        · intro P ctx' h
          rw [findZ, if_neg h1, if_pos h2] at h
          exact IH.2 P ctx' h
      · have hk : k = key := le_antisymm (not_lt.1 h2) (not_lt.1 h1)
        subst hk
        constructor
        · intro X' ctx' h
          rw [findZ, if_neg h1, if_neg h2] at h
          injection h with h3 h4
          subst h3; subst h4
          refine ⟨i, l, r, v, ctxLeftP ctx ++ l.inorder, r.inorder ++ ctxRightP ctx,
            rfl, ?_, ?_, ?_, ?_⟩
          · rw [inorder_plug]; simp [BT.inorder]
          · intro w; rw [inorder_plug]; simp [BT.inorder]
          · intro a ha
            simp only [List.map_append, List.mem_append] at ha
            rcases ha with ha | ha
            · exact hL a ha
            · exact hlk a ha
          · intro a ha
            simp only [List.map_append, List.mem_append] at ha
            rcases ha with ha | ha
            · exact hrk a ha
            · exact hR a ha
        · intro P ctx' h
          rw [findZ, if_neg h1, if_neg h2] at h
          exact absurd h (by simp)

/-! ### Heap-layer helper lemmas -/

theorem idsM_nil : BT.nil.idsM = 0 := rfl

theorem idsM_node (i : Nat) (l : BT) (k v : Int) (r : BT) :
    (BT.node i l k v r).idsM = i ::ₘ (l.idsM + r.idsM) := rfl

theorem mem_idsM_root : ∀ {b : BT} {j : Nat}, b.rootId = some j → j ∈ b.idsM
  | .nil, _, h => by simp [BT.rootId] at h
  | .node i l k v r, j, h => by
    simp only [BT.rootId, Option.some_inj] at h
    subst h
    simp [idsM_node]

theorem setLeft_same (h : Nat → Option Node) (i : Nat) (c : Option Nat) :
    setLeft h i c i = (h i).map (fun n => { n with left := c }) := by simp [setLeft]

theorem setLeft_ne (h : Nat → Option Node) (i : Nat) (c : Option Nat) {j : Nat}
    (hj : j ≠ i) : setLeft h i c j = h j := by simp [setLeft, hj]

theorem setRight_same (h : Nat → Option Node) (i : Nat) (c : Option Nat) :
    setRight h i c i = (h i).map (fun n => { n with right := c }) := by simp [setRight]

theorem setRight_ne (h : Nat → Option Node) (i : Nat) (c : Option Nat) {j : Nat}
    (hj : j ≠ i) : setRight h i c j = h j := by simp [setRight, hj]

theorem setParent_same (h : Nat → Option Node) (i : Nat) (p : Option Nat) :
    setParent h i p i = (h i).map (fun n => { n with parent := p }) := by simp [setParent]

theorem setParent_ne (h : Nat → Option Node) (i : Nat) (p : Option Nat) {j : Nat}
    (hj : j ≠ i) : setParent h i p j = h j := by simp [setParent, hj]

theorem setVal_same (h : Nat → Option Node) (i : Nat) (v : Int) :
    setVal h i v i = (h i).map (fun n => { n with val := v }) := by simp [setVal]

theorem setVal_ne (h : Nat → Option Node) (i : Nat) (v : Int) {j : Nat}
    (hj : j ≠ i) : setVal h i v j = h j := by simp [setVal, hj]

/-- The `if b: b.parent = p` step of `_rotate`, evaluated pointwise. -/
theorem matchSetParent_apply (h : Nat → Option Node) (b : Option Nat) (p : Nat) (j : Nat) :
    (match b with
      | some bi => setParent h bi (some p)
      | none => h) j
      = if b = some j then (h j).map (fun n => { n with parent := some p }) else h j := by
  cases b with
  | none => simp
  | some bi =>
    show setParent h bi (some p) j = _
    by_cases hj : j = bi
    · subst hj; simp [setParent_same]
    · rw [setParent_ne h bi _ hj]
      have hbij : ¬(some bi = some j) := by
        simp only [Option.some_inj]
        exact fun h' => hj h'.symm
      rw [if_neg hbij]

theorem Rep.monoHeap {h h' : Nat → Option Node} {pp : Option Nat} {b : BT}
    (hr : Rep h pp b) (hagree : ∀ j ∈ b.idsM, h' j = h j) : Rep h' pp b := by
  induction hr with
  | nil => exact Rep.nil
  | @node pp i l r k v hi _ _ ihl ihr =>
    refine Rep.node ?_ (ihl ?_) (ihr ?_)
    · rw [hagree i (by simp [idsM_node]), hi]
    · intro j hj; exact hagree j (by simp [idsM_node, hj])
    · intro j hj; exact hagree j (by simp [idsM_node, hj])

theorem RepCtx.monoCtx {h h' : Nat → Option Node} {hid : Option Nat} {ctx : List Frame}
    (hr : RepCtx h hid ctx) (hagree : ∀ j ∈ ctxIdsM ctx, h' j = h j) : RepCtx h' hid ctx := by
  induction hr with
  | nil => exact RepCtx.nil
  | @cons hid f fs hf hsib _ ih =>
    refine RepCtx.cons ?_ (hsib.monoHeap ?_) (ih ?_)
    · rw [hagree f.id (by simp [ctxIdsM]), hf]
    · intro j hj; exact hagree j (by simp [ctxIdsM, hj])
    · intro j hj; exact hagree j (by simp [ctxIdsM, hj])

/-- Re-hang a represented subtree under a new parent: only the root
record's `parent` field changes. -/
theorem Rep.reparent {h h' : Nat → Option Node} {pp pp' : Option Nat} {b : BT}
    (hr : Rep h pp b) (hnd : b.idsM.Nodup)
    (hroot : ∀ j, b.rootId = some j →
      h' j = (h j).map (fun n => { n with parent := pp' }))
    (hrest : ∀ j ∈ b.idsM, b.rootId ≠ some j → h' j = h j) :
    Rep h' pp' b := by
  cases hr with
  | nil => exact Rep.nil
  | @node pp i l r k v hi hl hr2 =>
    have hnotl : i ∉ l.idsM + r.idsM := by
      rw [idsM_node] at hnd
      exact (Multiset.nodup_cons.1 hnd).1
    refine Rep.node ?_ (hl.monoHeap ?_) (hr2.monoHeap ?_)
    · rw [hroot i rfl, hi]; rfl
    · intro j hj
      refine hrest j (by simp [idsM_node, hj]) ?_
      simp only [BT.rootId, ne_eq, Option.some_inj]
      rintro rfl
      exact hnotl (by simp [hj])
    · intro j hj
      refine hrest j (by simp [idsM_node, hj]) ?_
      simp only [BT.rootId, ne_eq, Option.some_inj]
      rintro rfl
      exact hnotl (by simp [hj])

theorem ctxIdsM_cons (f : Frame) (fs : List Frame) :
    ctxIdsM (f :: fs) = f.id ::ₘ (f.sib.idsM + ctxIdsM fs) := rfl

/-- Zoom the invariant from a node to its left child. -/
theorem TreeRepAt.zoomLeft {t : SplayTree} {i : Nat} {l r : BT} {k v : Int}
    {ctx : List Frame} (H : TreeRepAt t (.node i l k v r) ctx) :
    TreeRepAt t l (⟨true, i, k, v, r⟩ :: ctx) := by
  obtain ⟨hrep, hrctx, hroot, hnodup, hbound⟩ := H
  cases hrep with
  | node hi hl hr =>
    have hmeq : l.idsM + ctxIdsM (⟨true, i, k, v, r⟩ :: ctx)
        = (BT.node i l k v r).idsM + ctxIdsM ctx := by
      simp only [ctxIdsM_cons, idsM_node]
      simp [← Multiset.singleton_add, add_comm, add_left_comm, add_assoc]
    refine ⟨hl, ?_, ?_, ?_, ?_⟩
    · exact RepCtx.cons (by simpa using hi) hr (by simpa using hrctx)
    · rw [hroot]
      show topRootId (BT.node i l k v r) ctx = topRootId (frameNode ⟨true, i, k, v, r⟩ l) ctx
      exact topRootId_congr (by simp [frameNode, BT.rootId]) ctx
    · rw [hmeq]; exact hnodup
    · rw [hmeq]; exact hbound

/-- Zoom the invariant from a node to its right child. -/
theorem TreeRepAt.zoomRight {t : SplayTree} {i : Nat} {l r : BT} {k v : Int}
    {ctx : List Frame} (H : TreeRepAt t (.node i l k v r) ctx) :
    TreeRepAt t r (⟨false, i, k, v, l⟩ :: ctx) := by
  obtain ⟨hrep, hrctx, hroot, hnodup, hbound⟩ := H
  cases hrep with
  | node hi hl hr =>
    have hmeq : r.idsM + ctxIdsM (⟨false, i, k, v, l⟩ :: ctx)
        = (BT.node i l k v r).idsM + ctxIdsM ctx := by
      simp only [ctxIdsM_cons, idsM_node]
      simp [← Multiset.singleton_add, add_comm, add_left_comm, add_assoc]
    refine ⟨hr, ?_, ?_, ?_, ?_⟩
    · exact RepCtx.cons (by simpa using hi) hl (by simpa using hrctx)
    · rw [hroot]
      show topRootId (BT.node i l k v r) ctx = topRootId (frameNode ⟨false, i, k, v, l⟩ r) ctx
      exact topRootId_congr (by simp [frameNode, BT.rootId]) ctx
    · rw [hmeq]; exact hnodup
    · rw [hmeq]; exact hbound

/-- Unzoom the invariant from a focus to its parent node. -/
theorem TreeRepAt.unzoom {t : SplayTree} {b : BT} {f : Frame} {ctx : List Frame}
    (H : TreeRepAt t b (f :: ctx)) :
    TreeRepAt t (frameNode f b) ctx := by
  obtain ⟨hrep, hrctx, hroot, hnodup, hbound⟩ := H
  cases hrctx with
  | cons hf hsib hrest =>
    have hmeq : (frameNode f b).idsM + ctxIdsM ctx = b.idsM + ctxIdsM (f :: ctx) := by
      simp only [ctxIdsM_cons, frameNode_idsM]
      simp [← Multiset.singleton_add, add_comm, add_left_comm, add_assoc]
    refine ⟨?_, ?_, ?_, ?_, ?_⟩
    · cases hd : f.dir
      · rw [show frameNode f b = .node f.id f.sib f.key f.val b by simp [frameNode, hd]]
        refine Rep.node ?_ hsib hrep
        rw [hf, hd]; simp
      · rw [show frameNode f b = .node f.id b f.key f.val f.sib by simp [frameNode, hd]]
        refine Rep.node ?_ hrep hsib
        rw [hf, hd]; simp
    · rw [frameNode_rootId]; exact hrest
    · exact hroot
    · rw [hmeq]; exact hnodup
    · rw [hmeq]; exact hbound

/-- Distinctness bookkeeping for a rotation configuration: the node `x`,
its parent `fid`, and the id sets of the focus's children (`A`, `B`), the
sibling (`S`) and the outer context (`C`) are pairwise disjoint. -/
theorem nodup_rot_facts {x fid : Nat} {A B S C : Multiset Nat}
    (h : ((x ::ₘ (A + B)) + (fid ::ₘ (S + C))).Nodup) :
    x ≠ fid ∧ (x ∉ A ∧ x ∉ B ∧ x ∉ S ∧ x ∉ C) ∧
    (fid ∉ A ∧ fid ∉ B ∧ fid ∉ S ∧ fid ∉ C) ∧
    (A.Nodup ∧ B.Nodup ∧ S.Nodup ∧ C.Nodup) ∧
    (∀ j ∈ A, j ≠ x ∧ j ≠ fid ∧ j ∉ B ∧ j ∉ S ∧ j ∉ C) ∧
    (∀ j ∈ B, j ≠ x ∧ j ≠ fid ∧ j ∉ A ∧ j ∉ S ∧ j ∉ C) ∧
    (∀ j ∈ S, j ≠ x ∧ j ≠ fid ∧ j ∉ A ∧ j ∉ B ∧ j ∉ C) ∧
    (∀ j ∈ C, j ≠ x ∧ j ≠ fid ∧ j ∉ A ∧ j ∉ B ∧ j ∉ S) := by
  simp only [Multiset.nodup_add, Multiset.nodup_cons, Multiset.disjoint_left,
    Multiset.mem_add, Multiset.mem_cons] at h
  obtain ⟨⟨hx1, hA, hB, hAB⟩, ⟨hf1, hS, hC, hSC⟩, hd⟩ := h
  push_neg at hx1 hf1
  refine ⟨?_, ⟨hx1.1, hx1.2, ?_, ?_⟩, ⟨?_, ?_, hf1.1, hf1.2⟩, ⟨hA, hB, hS, hC⟩, ?_, ?_, ?_, ?_⟩
  · intro he; exact (hd (Or.inl rfl)) (Or.inl he)
  · intro hm; exact (hd (Or.inl rfl)) (Or.inr (Or.inl hm))
  · intro hm; exact (hd (Or.inl rfl)) (Or.inr (Or.inr hm))
  · intro hm; exact (hd (Or.inr (Or.inl hm))) (Or.inl rfl)
  · intro hm; exact (hd (Or.inr (Or.inr hm))) (Or.inl rfl)
  · intro j hj
    refine ⟨fun he => hx1.1 (he ▸ hj), fun he => (hd (Or.inr (Or.inl hj))) (Or.inl he),
      fun hm => hAB hj hm, fun hm => (hd (Or.inr (Or.inl hj))) (Or.inr (Or.inl hm)),
      fun hm => (hd (Or.inr (Or.inl hj))) (Or.inr (Or.inr hm))⟩
  · intro j hj
    refine ⟨fun he => hx1.2 (he ▸ hj), fun he => (hd (Or.inr (Or.inr hj))) (Or.inl he),
      fun hm => hAB hm hj, fun hm => (hd (Or.inr (Or.inr hj))) (Or.inr (Or.inl hm)),
      fun hm => (hd (Or.inr (Or.inr hj))) (Or.inr (Or.inr hm))⟩
  · intro j hj
    refine ⟨fun he => (hd (Or.inl rfl)) (Or.inr (Or.inl (he ▸ hj))),
      fun he => hf1.1 (he ▸ hj),
      fun hm => (hd (Or.inr (Or.inl hm))) (Or.inr (Or.inl hj)),
      fun hm => (hd (Or.inr (Or.inr hm))) (Or.inr (Or.inl hj)),
      fun hm => hSC hj hm⟩
  · intro j hj
    refine ⟨fun he => (hd (Or.inl rfl)) (Or.inr (Or.inr (he ▸ hj))),
      fun he => hf1.2 (he ▸ hj),
      fun hm => (hd (Or.inr (Or.inl hm))) (Or.inr (Or.inr hj)),
      fun hm => (hd (Or.inr (Or.inr hm))) (Or.inr (Or.inr hj)),
      fun hm => hSC hm hj⟩

theorem rotateCore_left_x {h : Nat → Option Node} {x p : Nat}
    {xk xv : Int} {la ra xpp : Option Nat} {pk pv : Int} {sr gp : Option Nat} {g : Option Nat}
    (hx : h x = some ⟨xk, xv, la, ra, xpp⟩)
    (hxp : x ≠ p) (hrax : ra ≠ some x) :
    rotateCore h x p ⟨xk, xv, la, ra, xpp⟩ ⟨pk, pv, some x, sr, gp⟩ g x
      = some ⟨xk, xv, la, some p, g⟩ := by
  simp only [rotateCore, if_pos rfl, if_true]
  rw [setParent_ne _ _ _ hxp, setParent_same, matchSetParent_apply, if_neg hrax,
    setRight_same, setLeft_ne _ _ _ hxp, hx]
  rfl

theorem rotateCore_left_p {h : Nat → Option Node} {x p : Nat}
    {xn : Node} {pk pv : Int} {sr gp : Option Nat} {g : Option Nat}
    (hp : h p = some ⟨pk, pv, some x, sr, gp⟩)
    (hxp : x ≠ p) (hrap : xn.right ≠ some p) :
    rotateCore h x p xn ⟨pk, pv, some x, sr, gp⟩ g p
      = some ⟨pk, pv, xn.right, sr, some x⟩ := by
  simp only [rotateCore, if_pos rfl, if_true]
  rw [setParent_same, setParent_ne _ _ _ (Ne.symm hxp), matchSetParent_apply, if_neg hrap,
    setRight_ne _ _ _ (Ne.symm hxp), setLeft_same, hp]
  rfl

theorem rotateCore_left_b {h : Nat → Option Node} {x p bi : Nat}
    {xn : Node} {pk pv : Int} {sr gp : Option Nat} {g : Option Nat}
    (hb : xn.right = some bi) (hbx : bi ≠ x) (hbp : bi ≠ p) :
    rotateCore h x p xn ⟨pk, pv, some x, sr, gp⟩ g bi
      = (h bi).map (fun n => { n with parent := some p }) := by
  simp only [rotateCore, if_pos rfl, if_true]
  rw [setParent_ne _ _ _ hbp, setParent_ne _ _ _ hbx, matchSetParent_apply, if_pos hb,
    setRight_ne _ _ _ hbx, setLeft_ne _ _ _ hbp]

theorem rotateCore_left_other {h : Nat → Option Node} {x p j : Nat}
    {xn : Node} {pk pv : Int} {sr gp : Option Nat} {g : Option Nat}
    (hjx : j ≠ x) (hjp : j ≠ p) (hjb : xn.right ≠ some j) :
    rotateCore h x p xn ⟨pk, pv, some x, sr, gp⟩ g j = h j := by
  simp only [rotateCore, if_pos rfl, if_true]
  rw [setParent_ne _ _ _ hjp, setParent_ne _ _ _ hjx, matchSetParent_apply, if_neg hjb,
    setRight_ne _ _ _ hjx, setLeft_ne _ _ _ hjp]

theorem rotateCore_right_x {h : Nat → Option Node} {x p : Nat}
    {xk xv : Int} {la ra xpp : Option Nat} {pk pv : Int} {pl gp : Option Nat} {g : Option Nat}
    (hx : h x = some ⟨xk, xv, la, ra, xpp⟩)
    (hplx : pl ≠ some x) (hxp : x ≠ p) (hlax : la ≠ some x) :
    rotateCore h x p ⟨xk, xv, la, ra, xpp⟩ ⟨pk, pv, pl, some x, gp⟩ g x
      = some ⟨xk, xv, some p, ra, g⟩ := by
  simp only [rotateCore]
  simp only [if_neg hplx]
  rw [setParent_ne _ _ _ hxp, setParent_same, matchSetParent_apply, if_neg hlax,
    setLeft_same, setRight_ne _ _ _ hxp, hx]
  rfl

theorem rotateCore_right_p {h : Nat → Option Node} {x p : Nat}
    {xn : Node} {pk pv : Int} {pl gp : Option Nat} {g : Option Nat}
    (hp : h p = some ⟨pk, pv, pl, some x, gp⟩)
    (hplx : pl ≠ some x) (hxp : x ≠ p) (hlap : xn.left ≠ some p) :
    rotateCore h x p xn ⟨pk, pv, pl, some x, gp⟩ g p
      = some ⟨pk, pv, pl, xn.left, some x⟩ := by
  simp only [rotateCore]
  simp only [if_neg hplx]
  rw [setParent_same, setParent_ne _ _ _ (Ne.symm hxp), matchSetParent_apply, if_neg hlap,
    setLeft_ne _ _ _ (Ne.symm hxp), setRight_same, hp]
  rfl

theorem rotateCore_right_b {h : Nat → Option Node} {x p bi : Nat}
    {xn : Node} {pk pv : Int} {pl gp : Option Nat} {g : Option Nat}
    (hplx : pl ≠ some x)
    (hb : xn.left = some bi) (hbx : bi ≠ x) (hbp : bi ≠ p) :
    rotateCore h x p xn ⟨pk, pv, pl, some x, gp⟩ g bi
      = (h bi).map (fun n => { n with parent := some p }) := by
  simp only [rotateCore]
  simp only [if_neg hplx]
  rw [setParent_ne _ _ _ hbp, setParent_ne _ _ _ hbx, matchSetParent_apply, if_pos hb,
    setLeft_ne _ _ _ hbx, setRight_ne _ _ _ hbp]

theorem rotateCore_right_other {h : Nat → Option Node} {x p j : Nat}
    {xn : Node} {pk pv : Int} {pl gp : Option Nat} {g : Option Nat}
    (hplx : pl ≠ some x)
    (hjx : j ≠ x) (hjp : j ≠ p) (hjb : xn.left ≠ some j) :
    rotateCore h x p xn ⟨pk, pv, pl, some x, gp⟩ g j = h j := by
  simp only [rotateCore]
  simp only [if_neg hplx]
  rw [setParent_ne _ _ _ hjp, setParent_ne _ _ _ hjx, matchSetParent_apply, if_neg hjb,
    setLeft_ne _ _ _ hjx, setRight_ne _ _ _ hjp]

/-- Replacing the middle of a sorted key sequence: inserting key `k`
between a lower part below `k` and an upper part above `k` keeps the
sequence sorted. -/
theorem sorted_insert_mid {A B : List (Int × Int)} {k : Int}
    (hA : ∀ a ∈ A.map Prod.fst, a < k) (hB : ∀ a ∈ B.map Prod.fst, k < a)
    (hs : ((A ++ B).map Prod.fst).Sorted (· < ·)) (w : Int) :
    ((A ++ (k, w) :: B).map Prod.fst).Sorted (· < ·) := by
  simp only [List.map_append, List.map_cons] at hs ⊢
  simp only [List.Sorted, List.pairwise_append, List.pairwise_cons, List.mem_cons] at hs ⊢
  obtain ⟨hA', hB', hcross⟩ := hs
  refine ⟨hA', ⟨fun b hb => hB b hb, hB'⟩, ?_⟩
  rintro a ha c (rfl | hc)
  · exact hA a ha
  · exact hcross a ha c hc

set_option maxHeartbeats 1000000

/-- `_rotate(x)` moves the focus one level up: it consumes the innermost
context frame, restructuring exactly as `rotStep`, and preserves the
whole-tree invariant and `nextId`. -/
theorem rotate_spec {t : SplayTree} {x : Nat} {a bsub : BT} {xk xv : Int}
    {f : Frame} {rest : List Frame}
    (H : TreeRepAt t (.node x a xk xv bsub) (f :: rest)) :
    TreeRepAt (t.rotate x) (rotStep (.node x a xk xv bsub) f) rest ∧
      (t.rotate x).nextId = t.nextId := by
  obtain ⟨hrep, hrctx, hroot, hnodup, hbound⟩ := H
  cases hrep with
  | node hx hral hrab =>
  cases hrctx with
  | cons hpf hsib hrest =>
  simp only [ctxPP] at hx
  have hfacts := nodup_rot_facts
    (show ((x ::ₘ (a.idsM + bsub.idsM)) + (f.id ::ₘ (f.sib.idsM + ctxIdsM rest))).Nodup by
      simpa [idsM_node, ctxIdsM_cons] using hnodup)
  obtain ⟨hxf, ⟨hxA, hxB, hxS, hxC⟩, ⟨hfA, hfB, hfS, hfC⟩, ⟨hndA, hndB, hndS, hndC⟩,
    hA, hB, hS, hC⟩ := hfacts
  have hbrx : bsub.rootId ≠ some x := fun hc => hxB (mem_idsM_root hc)
  have hbrf : bsub.rootId ≠ some f.id := fun hc => hfB (mem_idsM_root hc)
  have harx : a.rootId ≠ some x := fun hc => hxA (mem_idsM_root hc)
  have harf : a.rootId ≠ some f.id := fun hc => hfA (mem_idsM_root hc)
  have hsrx : f.sib.rootId ≠ some x := fun hc => hxS (mem_idsM_root hc)
  cases hdir : f.dir with
  | true =>
    rw [hdir] at hpf
    simp only [if_true] at hpf
    rw [show (BT.node x a xk xv bsub).rootId = some x from rfl] at hpf
    rw [show rotStep (.node x a xk xv bsub) f
        = .node x a xk xv (.node f.id bsub f.key f.val f.sib) by simp [rotStep, hdir]]
    cases rest with
    | nil =>
      simp only [ctxPP] at hpf
      simp only [SplayTree.rotate, hx, hpf]
      refine ⟨⟨?_, ?_, ?_, ?_, ?_⟩, trivial⟩
      · refine Rep.node ?_ ?_ ?_
        · show rotateCore t.heap x f.id _ _ none x = _
          rw [rotateCore_left_x hx hxf hbrx]
          rfl
        · refine hral.monoHeap ?_
          intro j hj
          exact rotateCore_left_other (hA j hj).1 (hA j hj).2.1
            (fun hc => (hA j hj).2.2.1 (mem_idsM_root hc))
        · refine Rep.node ?_ ?_ ?_
          · show rotateCore t.heap x f.id _ _ none f.id = _
            rw [rotateCore_left_p hpf hxf hbrf]
          · refine hrab.reparent hndB ?_ ?_
            · intro j hj
              exact rotateCore_left_b hj (hB j (mem_idsM_root hj)).1
                (hB j (mem_idsM_root hj)).2.1
            · intro j hj hne
              exact rotateCore_left_other (hB j hj).1 (hB j hj).2.1 hne
          · refine hsib.monoHeap ?_
            intro j hj
            exact rotateCore_left_other (hS j hj).1 (hS j hj).2.1
              (fun hc => (hS j hj).2.2.2.1 (mem_idsM_root hc))
      · exact RepCtx.nil
      · simp [topRootId, BT.rootId]
      · have hperm : (BT.node x a xk xv (BT.node f.id bsub f.key f.val f.sib)).idsM
            + ctxIdsM ([] : List Frame)
            = (BT.node x a xk xv bsub).idsM + ctxIdsM (f :: ([] : List Frame)) := by
          simp only [idsM_node, ctxIdsM_cons, ctxIdsM]
          simp [← Multiset.singleton_add, add_comm, add_left_comm, add_assoc]
        rw [hperm]; exact hnodup
      · have hperm : (BT.node x a xk xv (BT.node f.id bsub f.key f.val f.sib)).idsM
            + ctxIdsM ([] : List Frame)
            = (BT.node x a xk xv bsub).idsM + ctxIdsM (f :: ([] : List Frame)) := by
          simp only [idsM_node, ctxIdsM_cons, ctxIdsM]
          simp [← Multiset.singleton_add, add_comm, add_left_comm, add_assoc]
        intro j hj
        exact hbound j (by rw [← hperm]; exact hj)
    | cons f2 rest2 =>
      cases hrest with
      | cons hg hsib2 hrest2 =>
      simp only [ctxPP] at hpf
      have hf2C : f2.id ∈ ctxIdsM (f2 :: rest2) := by
        rw [ctxIdsM_cons]; exact Multiset.mem_cons_self _ _
      have hxg2 : x ≠ f2.id := fun hc => hxC (hc ▸ hf2C)
      have hfg2 : f.id ≠ f2.id := fun hc => hfC (hc ▸ hf2C)
      have hbrg2 : bsub.rootId ≠ some f2.id :=
        fun hc => (hC f2.id hf2C).2.2.2.1 (mem_idsM_root hc)
      have hndC2 : f2.id ∉ f2.sib.idsM + ctxIdsM rest2 := by
        rw [ctxIdsM_cons] at hndC
        exact (Multiset.nodup_cons.1 hndC).1
      have hg4 : rotateCore t.heap x f.id ⟨xk, xv, a.rootId, bsub.rootId, some f.id⟩
          ⟨f.key, f.val, some x, f.sib.rootId, some f2.id⟩ (some f2.id) f2.id
          = t.heap f2.id :=
        rotateCore_left_other (Ne.symm hxg2) (Ne.symm hfg2) hbrg2
      have memsib : ∀ j ∈ f2.sib.idsM, j ∈ ctxIdsM (f2 :: rest2) := by
        intro j hj
        rw [ctxIdsM_cons]
        exact Multiset.mem_cons_of_mem (Multiset.mem_add.2 (Or.inl hj))
      have memrest2 : ∀ j ∈ ctxIdsM rest2, j ∈ ctxIdsM (f2 :: rest2) := by
        intro j hj
        rw [ctxIdsM_cons]
        exact Multiset.mem_cons_of_mem (Multiset.mem_add.2 (Or.inr hj))
      cases hdir2 : f2.dir with
      | true =>
        rw [hdir2] at hg
        simp only [if_true] at hg
        simp only [SplayTree.rotate, hx, hpf, hg4, hg, if_pos rfl, if_true]
        refine ⟨⟨?_, ?_, ?_, ?_, ?_⟩, trivial⟩
        · refine Rep.node ?_ ?_ ?_
          · show setLeft _ f2.id (some x) x = _
            rw [setLeft_ne _ _ _ hxg2, rotateCore_left_x hx hxf hbrx]
            rfl
          · refine hral.monoHeap ?_
            intro j hj
            have hjg2 : j ≠ f2.id := fun hc => (hA j hj).2.2.2.2 (hc ▸ hf2C)
            exact (setLeft_ne _ _ _ hjg2).trans (rotateCore_left_other (hA j hj).1
              (hA j hj).2.1 (fun hc => (hA j hj).2.2.1 (mem_idsM_root hc)))
          · refine Rep.node ?_ ?_ ?_
            · show setLeft _ f2.id (some x) f.id = _
              rw [setLeft_ne _ _ _ hfg2, rotateCore_left_p hpf hxf hbrf]
            · refine hrab.reparent hndB ?_ ?_
              · intro j hj
                have hjB : j ∈ bsub.idsM := mem_idsM_root hj
                have hjg2 : j ≠ f2.id := fun hc => (hB j hjB).2.2.2.2 (hc ▸ hf2C)
                exact (setLeft_ne _ _ _ hjg2).trans
                  (rotateCore_left_b hj (hB j hjB).1 (hB j hjB).2.1)
              · intro j hj hne
                have hjg2 : j ≠ f2.id := fun hc => (hB j hj).2.2.2.2 (hc ▸ hf2C)
                exact (setLeft_ne _ _ _ hjg2).trans
                  (rotateCore_left_other (hB j hj).1 (hB j hj).2.1 hne)
            · refine hsib.monoHeap ?_
              intro j hj
              have hjg2 : j ≠ f2.id := fun hc => (hS j hj).2.2.2.2 (hc ▸ hf2C)
              exact (setLeft_ne _ _ _ hjg2).trans (rotateCore_left_other (hS j hj).1
                (hS j hj).2.1 (fun hc => (hS j hj).2.2.2.1 (mem_idsM_root hc)))
        · refine RepCtx.cons ?_ ?_ ?_
          · show setLeft _ f2.id (some x) f2.id = _
            rw [setLeft_same, hg4, hg]
            simp only [hdir2, if_true]
            rfl
          · refine hsib2.monoHeap ?_
            intro j hj
            have hjg2 : j ≠ f2.id :=
              fun hc => hndC2 (Multiset.mem_add.2 (Or.inl (hc ▸ hj)))
            exact (setLeft_ne _ _ _ hjg2).trans
              (rotateCore_left_other (hC j (memsib j hj)).1 (hC j (memsib j hj)).2.1
                (fun hc => (hC j (memsib j hj)).2.2.2.1 (mem_idsM_root hc)))
          · refine hrest2.monoCtx ?_
            intro j hj
            have hjg2 : j ≠ f2.id :=
              fun hc => hndC2 (Multiset.mem_add.2 (Or.inr (hc ▸ hj)))
            exact (setLeft_ne _ _ _ hjg2).trans
              (rotateCore_left_other (hC j (memrest2 j hj)).1 (hC j (memrest2 j hj)).2.1
                (fun hc => (hC j (memrest2 j hj)).2.2.2.1 (mem_idsM_root hc)))
        · show t.root = _
          rw [hroot]
          show topRootId (frameNode f (BT.node x a xk xv bsub)) (f2 :: rest2) = _
          exact topRootId_indep rest2 f2 _ _
        · have hperm : (BT.node x a xk xv (BT.node f.id bsub f.key f.val f.sib)).idsM
              + ctxIdsM (f2 :: rest2)
              = (BT.node x a xk xv bsub).idsM + ctxIdsM (f :: f2 :: rest2) := by
            simp only [idsM_node, ctxIdsM_cons]
            simp [← Multiset.singleton_add, add_comm, add_left_comm, add_assoc]
          rw [hperm]; exact hnodup
        · have hperm : (BT.node x a xk xv (BT.node f.id bsub f.key f.val f.sib)).idsM
              + ctxIdsM (f2 :: rest2)
              = (BT.node x a xk xv bsub).idsM + ctxIdsM (f :: f2 :: rest2) := by
            simp only [idsM_node, ctxIdsM_cons]
            simp [← Multiset.singleton_add, add_comm, add_left_comm, add_assoc]
          intro j hj
          exact hbound j (by rw [← hperm]; exact hj)
      | false =>
        rw [hdir2] at hg
        simp only [Bool.false_eq_true, if_false] at hg
        have hnlf : ¬(f2.sib.rootId = some f.id) :=
          fun hc => hfC (memsib f.id (mem_idsM_root hc))
        simp only [SplayTree.rotate, hx, hpf, hg4, hg, hnlf, if_false]
        refine ⟨⟨?_, ?_, ?_, ?_, ?_⟩, trivial⟩
        · refine Rep.node ?_ ?_ ?_
          · show setRight _ f2.id (some x) x = _
            rw [setRight_ne _ _ _ hxg2, rotateCore_left_x hx hxf hbrx]
            rfl
          · refine hral.monoHeap ?_
            intro j hj
            have hjg2 : j ≠ f2.id := fun hc => (hA j hj).2.2.2.2 (hc ▸ hf2C)
            exact (setRight_ne _ _ _ hjg2).trans (rotateCore_left_other (hA j hj).1
              (hA j hj).2.1 (fun hc => (hA j hj).2.2.1 (mem_idsM_root hc)))
          · refine Rep.node ?_ ?_ ?_
            · show setRight _ f2.id (some x) f.id = _
              rw [setRight_ne _ _ _ hfg2, rotateCore_left_p hpf hxf hbrf]
            · refine hrab.reparent hndB ?_ ?_
              · intro j hj
                have hjB : j ∈ bsub.idsM := mem_idsM_root hj
                have hjg2 : j ≠ f2.id := fun hc => (hB j hjB).2.2.2.2 (hc ▸ hf2C)
                exact (setRight_ne _ _ _ hjg2).trans
                  (rotateCore_left_b hj (hB j hjB).1 (hB j hjB).2.1)
              · intro j hj hne
                have hjg2 : j ≠ f2.id := fun hc => (hB j hj).2.2.2.2 (hc ▸ hf2C)
                exact (setRight_ne _ _ _ hjg2).trans
                  (rotateCore_left_other (hB j hj).1 (hB j hj).2.1 hne)
            · refine hsib.monoHeap ?_
              intro j hj
              have hjg2 : j ≠ f2.id := fun hc => (hS j hj).2.2.2.2 (hc ▸ hf2C)
              exact (setRight_ne _ _ _ hjg2).trans (rotateCore_left_other (hS j hj).1
                (hS j hj).2.1 (fun hc => (hS j hj).2.2.2.1 (mem_idsM_root hc)))
        · refine RepCtx.cons ?_ ?_ ?_
          · show setRight _ f2.id (some x) f2.id = _
            rw [setRight_same, hg4, hg]
            simp only [hdir2, Bool.false_eq_true, if_false]
            rfl
          · refine hsib2.monoHeap ?_
            intro j hj
            have hjg2 : j ≠ f2.id :=
              fun hc => hndC2 (Multiset.mem_add.2 (Or.inl (hc ▸ hj)))
            exact (setRight_ne _ _ _ hjg2).trans
              (rotateCore_left_other (hC j (memsib j hj)).1 (hC j (memsib j hj)).2.1
                (fun hc => (hC j (memsib j hj)).2.2.2.1 (mem_idsM_root hc)))
          · refine hrest2.monoCtx ?_
            intro j hj
            have hjg2 : j ≠ f2.id :=
              fun hc => hndC2 (Multiset.mem_add.2 (Or.inr (hc ▸ hj)))
            exact (setRight_ne _ _ _ hjg2).trans
              (rotateCore_left_other (hC j (memrest2 j hj)).1 (hC j (memrest2 j hj)).2.1
                (fun hc => (hC j (memrest2 j hj)).2.2.2.1 (mem_idsM_root hc)))
        · show t.root = _
          rw [hroot]
          show topRootId (frameNode f (BT.node x a xk xv bsub)) (f2 :: rest2) = _
          exact topRootId_indep rest2 f2 _ _
        · have hperm : (BT.node x a xk xv (BT.node f.id bsub f.key f.val f.sib)).idsM
              + ctxIdsM (f2 :: rest2)
              = (BT.node x a xk xv bsub).idsM + ctxIdsM (f :: f2 :: rest2) := by
            simp only [idsM_node, ctxIdsM_cons]
            simp [← Multiset.singleton_add, add_comm, add_left_comm, add_assoc]
          rw [hperm]; exact hnodup
        · have hperm : (BT.node x a xk xv (BT.node f.id bsub f.key f.val f.sib)).idsM
              + ctxIdsM (f2 :: rest2)
              = (BT.node x a xk xv bsub).idsM + ctxIdsM (f :: f2 :: rest2) := by
            simp only [idsM_node, ctxIdsM_cons]
            simp [← Multiset.singleton_add, add_comm, add_left_comm, add_assoc]
          intro j hj
          exact hbound j (by rw [← hperm]; exact hj)
  | false =>
    rw [hdir] at hpf
    simp only [Bool.false_eq_true, if_false] at hpf
    rw [show (BT.node x a xk xv bsub).rootId = some x from rfl] at hpf
    rw [show rotStep (.node x a xk xv bsub) f
        = .node x (.node f.id f.sib f.key f.val a) xk xv bsub by simp [rotStep, hdir]]
    cases rest with
    | nil =>
      simp only [ctxPP] at hpf
      simp only [SplayTree.rotate, hx, hpf]
      refine ⟨⟨?_, ?_, ?_, ?_, ?_⟩, trivial⟩
      · refine Rep.node ?_ ?_ ?_
        · show rotateCore t.heap x f.id _ _ none x = _
          rw [rotateCore_right_x hx hsrx hxf harx]
          rfl
        · refine Rep.node ?_ ?_ ?_
          · show rotateCore t.heap x f.id _ _ none f.id = _
            rw [rotateCore_right_p hpf hsrx hxf harf]
          · refine hsib.monoHeap ?_
            intro j hj
            exact rotateCore_right_other hsrx (hS j hj).1 (hS j hj).2.1
              (fun hc => (hS j hj).2.2.1 (mem_idsM_root hc))
          · refine hral.reparent hndA ?_ ?_
            · intro j hj
              exact rotateCore_right_b hsrx hj (hA j (mem_idsM_root hj)).1
                (hA j (mem_idsM_root hj)).2.1
            · intro j hj hne
              exact rotateCore_right_other hsrx (hA j hj).1 (hA j hj).2.1 hne
        · refine hrab.monoHeap ?_
          intro j hj
          exact rotateCore_right_other hsrx (hB j hj).1 (hB j hj).2.1
            (fun hc => (hB j hj).2.2.1 (mem_idsM_root hc))
      · exact RepCtx.nil
      · simp [topRootId, BT.rootId]
      · have hperm : (BT.node x (BT.node f.id f.sib f.key f.val a) xk xv bsub).idsM
            + ctxIdsM ([] : List Frame)
            = (BT.node x a xk xv bsub).idsM + ctxIdsM (f :: ([] : List Frame)) := by
          simp only [idsM_node, ctxIdsM_cons, ctxIdsM]
          simp [← Multiset.singleton_add, add_comm, add_left_comm, add_assoc]
        rw [hperm]; exact hnodup
      · have hperm : (BT.node x (BT.node f.id f.sib f.key f.val a) xk xv bsub).idsM
            + ctxIdsM ([] : List Frame)
            = (BT.node x a xk xv bsub).idsM + ctxIdsM (f :: ([] : List Frame)) := by
          simp only [idsM_node, ctxIdsM_cons, ctxIdsM]
          simp [← Multiset.singleton_add, add_comm, add_left_comm, add_assoc]
        intro j hj
        exact hbound j (by rw [← hperm]; exact hj)
    | cons f2 rest2 =>
      cases hrest with
      | cons hg hsib2 hrest2 =>
      simp only [ctxPP] at hpf
      have hf2C : f2.id ∈ ctxIdsM (f2 :: rest2) := by
        rw [ctxIdsM_cons]; exact Multiset.mem_cons_self _ _
      have hxg2 : x ≠ f2.id := fun hc => hxC (hc ▸ hf2C)
      have hfg2 : f.id ≠ f2.id := fun hc => hfC (hc ▸ hf2C)
      have harg2 : a.rootId ≠ some f2.id :=
        fun hc => (hC f2.id hf2C).2.2.1 (mem_idsM_root hc)
      have hndC2 : f2.id ∉ f2.sib.idsM + ctxIdsM rest2 := by
        rw [ctxIdsM_cons] at hndC
        exact (Multiset.nodup_cons.1 hndC).1
      have hg4 : rotateCore t.heap x f.id ⟨xk, xv, a.rootId, bsub.rootId, some f.id⟩
          ⟨f.key, f.val, f.sib.rootId, some x, some f2.id⟩ (some f2.id) f2.id
          = t.heap f2.id :=
        rotateCore_right_other hsrx (Ne.symm hxg2) (Ne.symm hfg2) harg2
      have memsib : ∀ j ∈ f2.sib.idsM, j ∈ ctxIdsM (f2 :: rest2) := by
        intro j hj
        rw [ctxIdsM_cons]
        exact Multiset.mem_cons_of_mem (Multiset.mem_add.2 (Or.inl hj))
      have memrest2 : ∀ j ∈ ctxIdsM rest2, j ∈ ctxIdsM (f2 :: rest2) := by
        intro j hj
        rw [ctxIdsM_cons]
        exact Multiset.mem_cons_of_mem (Multiset.mem_add.2 (Or.inr hj))
      cases hdir2 : f2.dir with
      | true =>
        rw [hdir2] at hg
        simp only [if_true] at hg
        simp only [SplayTree.rotate, hx, hpf, hg4, hg, if_pos rfl, if_true]
        refine ⟨⟨?_, ?_, ?_, ?_, ?_⟩, trivial⟩
        · refine Rep.node ?_ ?_ ?_
          · show setLeft _ f2.id (some x) x = _
            rw [setLeft_ne _ _ _ hxg2, rotateCore_right_x hx hsrx hxf harx]
            rfl
          · refine Rep.node ?_ ?_ ?_
            · show setLeft _ f2.id (some x) f.id = _
              rw [setLeft_ne _ _ _ hfg2, rotateCore_right_p hpf hsrx hxf harf]
            · refine hsib.monoHeap ?_
              intro j hj
              have hjg2 : j ≠ f2.id := fun hc => (hS j hj).2.2.2.2 (hc ▸ hf2C)
              exact (setLeft_ne _ _ _ hjg2).trans (rotateCore_right_other hsrx (hS j hj).1
                (hS j hj).2.1 (fun hc => (hS j hj).2.2.1 (mem_idsM_root hc)))
            · refine hral.reparent hndA ?_ ?_
              · intro j hj
                have hjA : j ∈ a.idsM := mem_idsM_root hj
                have hjg2 : j ≠ f2.id := fun hc => (hA j hjA).2.2.2.2 (hc ▸ hf2C)
                exact (setLeft_ne _ _ _ hjg2).trans
                  (rotateCore_right_b hsrx hj (hA j hjA).1 (hA j hjA).2.1)
              · intro j hj hne
                have hjg2 : j ≠ f2.id := fun hc => (hA j hj).2.2.2.2 (hc ▸ hf2C)
                exact (setLeft_ne _ _ _ hjg2).trans
                  (rotateCore_right_other hsrx (hA j hj).1 (hA j hj).2.1 hne)
          · refine hrab.monoHeap ?_
            intro j hj
            have hjg2 : j ≠ f2.id := fun hc => (hB j hj).2.2.2.2 (hc ▸ hf2C)
            exact (setLeft_ne _ _ _ hjg2).trans (rotateCore_right_other hsrx (hB j hj).1
              (hB j hj).2.1 (fun hc => (hB j hj).2.2.1 (mem_idsM_root hc)))
        · refine RepCtx.cons ?_ ?_ ?_
          · show setLeft _ f2.id (some x) f2.id = _
            rw [setLeft_same, hg4, hg]
            simp only [hdir2, if_true]
            rfl
          · refine hsib2.monoHeap ?_
            intro j hj
            have hjg2 : j ≠ f2.id :=
              fun hc => hndC2 (Multiset.mem_add.2 (Or.inl (hc ▸ hj)))
            exact (setLeft_ne _ _ _ hjg2).trans
              (rotateCore_right_other hsrx (hC j (memsib j hj)).1 (hC j (memsib j hj)).2.1
                (fun hc => (hC j (memsib j hj)).2.2.1 (mem_idsM_root hc)))
          · refine hrest2.monoCtx ?_
            intro j hj
            have hjg2 : j ≠ f2.id :=
              fun hc => hndC2 (Multiset.mem_add.2 (Or.inr (hc ▸ hj)))
            exact (setLeft_ne _ _ _ hjg2).trans
              (rotateCore_right_other hsrx (hC j (memrest2 j hj)).1 (hC j (memrest2 j hj)).2.1
                (fun hc => (hC j (memrest2 j hj)).2.2.1 (mem_idsM_root hc)))
        · show t.root = _
          rw [hroot]
          show topRootId (frameNode f (BT.node x a xk xv bsub)) (f2 :: rest2) = _
          exact topRootId_indep rest2 f2 _ _
        · have hperm : (BT.node x (BT.node f.id f.sib f.key f.val a) xk xv bsub).idsM
              + ctxIdsM (f2 :: rest2)
              = (BT.node x a xk xv bsub).idsM + ctxIdsM (f :: f2 :: rest2) := by
            simp only [idsM_node, ctxIdsM_cons]
            simp [← Multiset.singleton_add, add_comm, add_left_comm, add_assoc]
          rw [hperm]; exact hnodup
        · have hperm : (BT.node x (BT.node f.id f.sib f.key f.val a) xk xv bsub).idsM
              + ctxIdsM (f2 :: rest2)
              = (BT.node x a xk xv bsub).idsM + ctxIdsM (f :: f2 :: rest2) := by
            simp only [idsM_node, ctxIdsM_cons]
            simp [← Multiset.singleton_add, add_comm, add_left_comm, add_assoc]
          intro j hj
          exact hbound j (by rw [← hperm]; exact hj)
      | false =>
        rw [hdir2] at hg
        simp only [Bool.false_eq_true, if_false] at hg
        have hnlf : ¬(f2.sib.rootId = some f.id) :=
          fun hc => hfC (memsib f.id (mem_idsM_root hc))
        simp only [SplayTree.rotate, hx, hpf, hg4, hg, hnlf, if_false]
        refine ⟨⟨?_, ?_, ?_, ?_, ?_⟩, trivial⟩
        · refine Rep.node ?_ ?_ ?_
          · show setRight _ f2.id (some x) x = _
            rw [setRight_ne _ _ _ hxg2, rotateCore_right_x hx hsrx hxf harx]
            rfl
          · refine Rep.node ?_ ?_ ?_
            · show setRight _ f2.id (some x) f.id = _
              rw [setRight_ne _ _ _ hfg2, rotateCore_right_p hpf hsrx hxf harf]
            · refine hsib.monoHeap ?_
              intro j hj
              have hjg2 : j ≠ f2.id := fun hc => (hS j hj).2.2.2.2 (hc ▸ hf2C)
              exact (setRight_ne _ _ _ hjg2).trans (rotateCore_right_other hsrx (hS j hj).1
                (hS j hj).2.1 (fun hc => (hS j hj).2.2.1 (mem_idsM_root hc)))
            · refine hral.reparent hndA ?_ ?_
              · intro j hj
                have hjA : j ∈ a.idsM := mem_idsM_root hj
                have hjg2 : j ≠ f2.id := fun hc => (hA j hjA).2.2.2.2 (hc ▸ hf2C)
                exact (setRight_ne _ _ _ hjg2).trans
                  (rotateCore_right_b hsrx hj (hA j hjA).1 (hA j hjA).2.1)
              · intro j hj hne
                have hjg2 : j ≠ f2.id := fun hc => (hA j hj).2.2.2.2 (hc ▸ hf2C)
                exact (setRight_ne _ _ _ hjg2).trans
                  (rotateCore_right_other hsrx (hA j hj).1 (hA j hj).2.1 hne)
          · refine hrab.monoHeap ?_
            intro j hj
            have hjg2 : j ≠ f2.id := fun hc => (hB j hj).2.2.2.2 (hc ▸ hf2C)
            exact (setRight_ne _ _ _ hjg2).trans (rotateCore_right_other hsrx (hB j hj).1
              (hB j hj).2.1 (fun hc => (hB j hj).2.2.1 (mem_idsM_root hc)))
        · refine RepCtx.cons ?_ ?_ ?_
          · show setRight _ f2.id (some x) f2.id = _
            rw [setRight_same, hg4, hg]
            simp only [hdir2, Bool.false_eq_true, if_false]
            rfl
          · refine hsib2.monoHeap ?_
            intro j hj
            have hjg2 : j ≠ f2.id :=
              fun hc => hndC2 (Multiset.mem_add.2 (Or.inl (hc ▸ hj)))
            exact (setRight_ne _ _ _ hjg2).trans
              (rotateCore_right_other hsrx (hC j (memsib j hj)).1 (hC j (memsib j hj)).2.1
                (fun hc => (hC j (memsib j hj)).2.2.1 (mem_idsM_root hc)))
          · refine hrest2.monoCtx ?_
            intro j hj
            have hjg2 : j ≠ f2.id :=
              fun hc => hndC2 (Multiset.mem_add.2 (Or.inr (hc ▸ hj)))
            exact (setRight_ne _ _ _ hjg2).trans
              (rotateCore_right_other hsrx (hC j (memrest2 j hj)).1 (hC j (memrest2 j hj)).2.1
                (fun hc => (hC j (memrest2 j hj)).2.2.1 (mem_idsM_root hc)))
        · show t.root = _
          rw [hroot]
          show topRootId (frameNode f (BT.node x a xk xv bsub)) (f2 :: rest2) = _
          exact topRootId_indep rest2 f2 _ _
        · have hperm : (BT.node x (BT.node f.id f.sib f.key f.val a) xk xv bsub).idsM
              + ctxIdsM (f2 :: rest2)
              = (BT.node x a xk xv bsub).idsM + ctxIdsM (f :: f2 :: rest2) := by
            simp only [idsM_node, ctxIdsM_cons]
            simp [← Multiset.singleton_add, add_comm, add_left_comm, add_assoc]
          rw [hperm]; exact hnodup
        · have hperm : (BT.node x (BT.node f.id f.sib f.key f.val a) xk xv bsub).idsM
              + ctxIdsM (f2 :: rest2)
              = (BT.node x a xk xv bsub).idsM + ctxIdsM (f :: f2 :: rest2) := by
            simp only [idsM_node, ctxIdsM_cons]
            simp [← Multiset.singleton_add, add_comm, add_left_comm, add_assoc]
          intro j hj
          exact hbound j (by rw [← hperm]; exact hj)


theorem Rep.node_inv {h : Nat → Option Node} {pp : Option Nat} {i : Nat} {l r : BT}
    {k v : Int} (hr : Rep h pp (.node i l k v r)) :
    h i = some ⟨k, v, l.rootId, r.rootId, pp⟩ ∧ Rep h (some i) l ∧ Rep h (some i) r := by
  cases hr with
  | node h1 h2 h3 => exact ⟨h1, h2, h3⟩

theorem RepCtx.cons_inv {h : Nat → Option Node} {hid : Option Nat} {f : Frame}
    {fs : List Frame} (hr : RepCtx h hid (f :: fs)) :
    h f.id = some ⟨f.key, f.val, (if f.dir then hid else f.sib.rootId),
      (if f.dir then f.sib.rootId else hid), ctxPP fs⟩ ∧
    Rep h (some f.id) f.sib ∧ RepCtx h (some f.id) fs := by
  cases hr with
  | cons h1 h2 h3 => exact ⟨h1, h2, h3⟩

/-- `rotate_spec`, stated for an arbitrary nonempty focus. -/
theorem rotate_spec' {t : SplayTree} {X : BT} {x : Nat} {f : Frame} {rest : List Frame}
    (H : TreeRepAt t X (f :: rest)) (hx : X.rootId = some x) :
    TreeRepAt (t.rotate x) (rotStep X f) rest ∧ (t.rotate x).nextId = t.nextId := by
  cases X with
  | nil => simp [BT.rootId] at hx
  | node i a k v b =>
    simp only [BT.rootId, Option.some_inj] at hx
    subst hx
    exact rotate_spec H

/-- Refocusing after the first rotation of a zig-zig step: rotating the
parent over the grandparent turns the two frames into the single merged
frame of `splayF`. -/
theorem rotStep_frameNode_comm {f1 f2 : Frame} (X : BT) (h : f1.dir = f2.dir) :
    rotStep (frameNode f1 X) f2 = frameNode { f1 with sib := frameNode f2 f1.sib } X := by
  cases hd : f1.dir <;> rw [hd] at h <;>
    simp [frameNode, rotStep, hd, ← h]

theorem TreeRepAt.zoomFrame {t : SplayTree} {f : Frame} {X : BT} {ctx : List Frame}
    (H : TreeRepAt t (frameNode f X) ctx) : TreeRepAt t X (f :: ctx) := by
  obtain ⟨d, i, k, v, s⟩ := f
  cases d
  · rw [show frameNode ⟨false, i, k, v, s⟩ X = .node i s k v X by simp [frameNode]] at H
    exact H.zoomRight
  · rw [show frameNode ⟨true, i, k, v, s⟩ X = .node i X k v s by simp [frameNode]] at H
    exact H.zoomLeft



/-- The `_splay` loop simulates `splayF`: with fuel at least the focus's
depth it terminates with the focus at the root, its result does not
depend on any extra fuel, and `nextId` is unchanged. -/
theorem splayLoop_spec : ∀ (ctx : List Frame) (X : BT) (x : Nat) (t : SplayTree),
    TreeRepAt t X ctx → X.rootId = some x →
    ∀ fuel, ctx.length ≤ fuel →
      TreeRepAt (splayLoop fuel t x) (splayF X ctx) [] ∧
      (splayLoop fuel t x).nextId = t.nextId ∧
      splayLoop fuel t x = splayLoop ctx.length t x
  | [], X, x, t, H, hrx, fuel, _ => by
    cases X with
    | nil => simp [BT.rootId] at hrx
    | node i a k v b =>
      simp only [BT.rootId, Option.some_inj] at hrx
      subst hrx
      obtain ⟨hx, -, -⟩ := H.rep.node_inv
      have hstop : ∀ fl, splayLoop fl t i = t := by
        intro fl
        cases fl with
        | zero => rfl
        | succ m => simp [splayLoop, hx, ctxPP]
      rw [show splayF (BT.node i a k v b) [] = BT.node i a k v b from rfl]
      rw [hstop fuel]
      exact ⟨H, rfl, (hstop 0).symm⟩
  | [f], X, x, t, H, hrx, fuel, hf => by
    cases X with
    | nil => simp [BT.rootId] at hrx
    | node i a k v b =>
      simp only [BT.rootId, Option.some_inj] at hrx
      subst hrx
      obtain ⟨hx, -, -⟩ := H.rep.node_inv
      obtain ⟨hp, -, -⟩ := H.rctx.cons_inv
      have hone : ∀ m, splayLoop (m + 1) t i = t.rotate i := by
        intro m
        have hbody : splayLoop (m + 1) t i = splayLoop m (t.rotate i) i := by
          simp only [splayLoop, hx, hp, ctxPP]
        rw [hbody]
        obtain ⟨H2, -⟩ := rotate_spec' H rfl
        obtain ⟨a', b', hsh⟩ := rotStep_shape i a k v b f
        rw [hsh] at H2
        obtain ⟨hx2, -, -⟩ := H2.rep.node_inv
        cases m with
        | zero => rfl
        | succ m2 => simp [splayLoop, hx2, ctxPP]
      cases fuel with
      | zero => exact absurd hf (by simp)
      | succ n =>
        rw [show splayF (BT.node i a k v b) [f] = rotStep (BT.node i a k v b) f from rfl]
        rw [hone n]
        obtain ⟨H2, hnx⟩ := rotate_spec' H rfl
        refine ⟨H2, hnx, ?_⟩
        rw [show ([f] : List Frame).length = 0 + 1 from rfl, hone 0]
  | f1 :: f2 :: rest, X, x, t, H, hrx, fuel, hf => by
    cases X with
    | nil => simp [BT.rootId] at hrx
    | node i a k v b =>
      simp only [BT.rootId, Option.some_inj] at hrx
      subst hrx
      obtain ⟨hx, -, -⟩ := H.rep.node_inv
      obtain ⟨hp, hsib1, hrc2⟩ := H.rctx.cons_inv
      obtain ⟨hg, -, -⟩ := hrc2.cons_inv
      rw [show (BT.node i a k v b).rootId = some i from rfl] at hp
      -- distinctness facts needed to evaluate the zig-zig/zig-zag test
      have hnodup := H.nodup
      have hdisj := (Multiset.nodup_add.1 hnodup).2.2
      have hiX : i ∈ (BT.node i a k v b).idsM := by simp [idsM_node]
      have hn1 : f1.sib.rootId ≠ some i := by
        intro hc
        refine Multiset.disjoint_left.1 hdisj hiX ?_
        rw [ctxIdsM_cons]
        exact Multiset.mem_cons_of_mem (Multiset.mem_add.2 (Or.inl (mem_idsM_root hc)))
      have hn2 : f2.sib.rootId ≠ some f1.id := by
        intro hc
        have hnd2 := (Multiset.nodup_add.1 hnodup).2.1
        rw [ctxIdsM_cons] at hnd2
        refine (Multiset.nodup_cons.1 hnd2).1 ?_
        rw [ctxIdsM_cons]
        refine Multiset.mem_add.2 (Or.inr ?_)
        exact Multiset.mem_cons_of_mem (Multiset.mem_add.2 (Or.inl (mem_idsM_root hc)))
      have hlen : rest.length + 1 + 1 ≤ fuel := by simpa using hf
      cases fuel with
      | zero => exact absurd hlen (by omega)
      | succ n =>
        have hrest : rest.length ≤ n := by omega
        by_cases hdd : f1.dir = f2.dir
        · -- zig-zig: rotate the parent first, then x
          have hstep : ∀ m, splayLoop (m + 1) t i
              = splayLoop m ((t.rotate f1.id).rotate i) i := by
            intro m
            rw [hdd] at hp
            cases hd2 : f2.dir with
            | true =>
              rw [hd2] at hp hg
              simp only [if_true] at hp hg
              simp only [splayLoop, hx, hp, hg, ctxPP]
              rw [if_pos (by simp)]
            | false =>
              rw [hd2] at hp hg
              simp only [Bool.false_eq_true, if_false] at hp hg
              simp only [splayLoop, hx, hp, hg, ctxPP]
              rw [if_pos (by simp [hn1, hn2])]
          obtain ⟨H1, hnx1⟩ := rotate_spec' H.unzoom (frameNode_rootId f1 _)
          rw [rotStep_frameNode_comm _ hdd] at H1
          obtain ⟨H2, hnx2⟩ := rotate_spec' H1.zoomFrame rfl
          have hshape := rotStep_shape i a k v b ({ f1 with sib := frameNode f2 f1.sib } : Frame)
          obtain ⟨a', b', hsh⟩ := hshape
          have IH := splayLoop_spec rest _ i _ H2 (by rw [hsh]; rfl) n hrest
          have IH2 := splayLoop_spec rest _ i _ H2 (by rw [hsh]; rfl)
            (rest.length + 1) (by omega)
          rw [show splayF (BT.node i a k v b) (f1 :: f2 :: rest)
              = if f1.dir = f2.dir then
                  splayF (rotStep (BT.node i a k v b)
                    { f1 with sib := frameNode f2 f1.sib }) rest
                else splayF (rotStep (rotStep (BT.node i a k v b) f1) f2) rest from rfl]
          rw [if_pos hdd]
          rw [hstep n]
          refine ⟨IH.1, by rw [IH.2.1, hnx2, hnx1], ?_⟩
          rw [show (f1 :: f2 :: rest).length = (rest.length + 1) + 1 by simp]
          rw [hstep (rest.length + 1)]
          rw [IH.2.2, IH2.2.2]
        · -- zig-zag: rotate x twice
          have hstep : ∀ m, splayLoop (m + 1) t i
              = splayLoop m ((t.rotate i).rotate i) i := by
            intro m
            cases hd1 : f1.dir with
            | true =>
              rw [hd1] at hp
              simp only [if_true] at hp
              have hd2 : f2.dir = false := by
                cases hv : f2.dir
                · rfl
                · exact absurd (hd1.trans hv.symm) hdd
              rw [hd2] at hg
              simp only [Bool.false_eq_true, if_false] at hg
              simp only [splayLoop, hx, hp, hg, ctxPP]
              rw [if_neg (by simp [hn2])]
            | false =>
              rw [hd1] at hp
              simp only [Bool.false_eq_true, if_false] at hp
              have hd2 : f2.dir = true := by
                cases hv : f2.dir
                · exact absurd (hd1.trans hv.symm) hdd
                · rfl
              rw [hd2] at hg
              simp only [if_true] at hg
              simp only [splayLoop, hx, hp, hg, ctxPP]
              rw [if_neg (by simp [hn1])]
          obtain ⟨H1, hnx1⟩ := rotate_spec' H rfl
          obtain ⟨a', b', hsh1⟩ := rotStep_shape i a k v b f1
          obtain ⟨H2, hnx2⟩ := rotate_spec' H1 (by rw [hsh1]; rfl)
          have IH := splayLoop_spec rest _ i _ H2
            (by rw [hsh1]
                obtain ⟨a'', b'', hsh2⟩ := rotStep_shape i a' k v b' f2
                rw [hsh2]; rfl) n hrest
          have IH2 := splayLoop_spec rest _ i _ H2
            (by rw [hsh1]
                obtain ⟨a'', b'', hsh2⟩ := rotStep_shape i a' k v b' f2
                rw [hsh2]; rfl) (rest.length + 1) (by omega)
          rw [show splayF (BT.node i a k v b) (f1 :: f2 :: rest)
              = if f1.dir = f2.dir then
                  splayF (rotStep (BT.node i a k v b)
                    { f1 with sib := frameNode f2 f1.sib }) rest
                else splayF (rotStep (rotStep (BT.node i a k v b) f1) f2) rest from rfl]
          rw [if_neg hdd]
          rw [hstep n]
          refine ⟨IH.1, by rw [IH.2.1, hnx2, hnx1], ?_⟩
          rw [show (f1 :: f2 :: rest).length = (rest.length + 1) + 1 by simp]
          rw [hstep (rest.length + 1)]
          rw [IH.2.2, IH2.2.2]



theorem size_card : ∀ b : BT, b.size = b.idsM.card
  | .nil => rfl
  | .node i l k v r => by
    simp [BT.size, idsM_node, size_card l, size_card r, add_comm]

theorem card_le_of_bound {s : Multiset Nat} {n : Nat} (hnd : s.Nodup)
    (hb : ∀ j ∈ s, j < n) : s.card ≤ n := by
  have hsub : s ⊆ Multiset.range n := fun j hj => Multiset.mem_range.2 (hb j hj)
  have := Multiset.card_le_card ((Multiset.le_iff_subset hnd).2 hsub)
  simpa using this

theorem ctx_length_le_card : ∀ ctx : List Frame, ctx.length ≤ (ctxIdsM ctx).card
  | [] => by simp [ctxIdsM]
  | f :: fs => by
    simp only [List.length_cons, ctxIdsM_cons, Multiset.card_cons, Multiset.card_add]
    have := ctx_length_le_card fs
    omega

/-- The shared descent loop of `insert`/`search` simulates `findZ`,
provided the fuel exceeds the focus subtree's node count; it also hands
back the well-formedness invariant at the stopping position. -/
theorem descend_spec (k : Int) : ∀ (X : BT) (ctx : List Frame) (t : SplayTree) (fuel : Nat),
    TreeRepAt t X ctx → X.size + 1 ≤ fuel →
    ((∀ X' ctx', findZ k X ctx = .found X' ctx' →
       TreeRepAt t X' ctx' ∧ ∃ i, X'.rootId = some i ∧
         descend t.heap k fuel X.rootId (ctxPP ctx) = .found i) ∧
     (findZ k X ctx = .missRoot →
       descend t.heap k fuel X.rootId (ctxPP ctx) = .notFound none) ∧
     (∀ P ctx', findZ k X ctx = .miss P ctx' →
       TreeRepAt t P ctx' ∧ ∃ pid, P.rootId = some pid ∧
         descend t.heap k fuel X.rootId (ctxPP ctx) = .notFound (some pid)))
  | .nil, [], t, fuel, H, hfl => by
    cases fuel with
    | zero => exact absurd hfl (by simp [BT.size])
    | succ m =>
      refine ⟨?_, ?_, ?_⟩
      · intro X' ctx' h; simp [findZ] at h
      · intro _; rfl
      · intro P ctx' h; simp [findZ] at h
  | .nil, f :: ctx2, t, fuel, H, hfl => by
    cases fuel with
    | zero => exact absurd hfl (by simp [BT.size])
    | succ m =>
      refine ⟨?_, ?_, ?_⟩
      · intro X' ctx' h; simp [findZ] at h
      · intro h; simp [findZ] at h
      · intro P ctx' h
        rw [findZ] at h
        injection h with h1 h2
        subst h1; subst h2
        exact ⟨H.unzoom, f.id, frameNode_rootId f _, rfl⟩
  | .node i l key v r, ctx, t, fuel, H, hfl => by
    cases fuel with
    | zero => exact absurd hfl (by simp [BT.size])
    | succ m =>
      obtain ⟨hx, -, -⟩ := H.rep.node_inv
      have hstep : descend t.heap k (m + 1) (BT.node i l key v r).rootId (ctxPP ctx)
          = if k < key then descend t.heap k m l.rootId (some i)
            else if key < k then descend t.heap k m r.rootId (some i)
            else .found i := by
        rw [show (BT.node i l key v r).rootId = some i from rfl]
        rw [descend, hx]
      have hsz : l.size + 1 ≤ m ∧ r.size + 1 ≤ m := by
        simp only [BT.size] at hfl
        omega
      by_cases h1 : k < key
      · have IH := descend_spec k l (⟨true, i, key, v, r⟩ :: ctx) t m H.zoomLeft hsz.1
        rw [show ctxPP (⟨true, i, key, v, r⟩ :: ctx) = some i from rfl] at IH
        refine ⟨?_, ?_, ?_⟩
        · intro X' ctx' h
          rw [findZ, if_pos h1] at h
          obtain ⟨hT, j, hj, hd⟩ := IH.1 X' ctx' h
          exact ⟨hT, j, hj, by rw [hstep, if_pos h1]; exact hd⟩
        · intro h
          rw [findZ, if_pos h1] at h
          have hd := IH.2.1 h
          rw [hstep, if_pos h1]; exact hd
        · intro P ctx' h
          rw [findZ, if_pos h1] at h
          obtain ⟨hT, pid, hpid, hd⟩ := IH.2.2 P ctx' h
          exact ⟨hT, pid, hpid, by rw [hstep, if_pos h1]; exact hd⟩
      · by_cases h2 : key < k
        · have IH := descend_spec k r (⟨false, i, key, v, l⟩ :: ctx) t m H.zoomRight hsz.2
          rw [show ctxPP (⟨false, i, key, v, l⟩ :: ctx) = some i from rfl] at IH
          refine ⟨?_, ?_, ?_⟩
          · intro X' ctx' h
            rw [findZ, if_neg h1, if_pos h2] at h
            obtain ⟨hT, j, hj, hd⟩ := IH.1 X' ctx' h
            exact ⟨hT, j, hj, by rw [hstep, if_neg h1, if_pos h2]; exact hd⟩
          · intro h
            rw [findZ, if_neg h1, if_pos h2] at h
            have hd := IH.2.1 h
            rw [hstep, if_neg h1, if_pos h2]; exact hd
          · intro P ctx' h
            rw [findZ, if_neg h1, if_pos h2] at h
            obtain ⟨hT, pid, hpid, hd⟩ := IH.2.2 P ctx' h
            exact ⟨hT, pid, hpid, by rw [hstep, if_neg h1, if_pos h2]; exact hd⟩
        · refine ⟨?_, ?_, ?_⟩
          · intro X' ctx' h
            rw [findZ, if_neg h1, if_neg h2] at h
            injection h with h3 h4
            subst h3; subst h4
            exact ⟨H, i, rfl, by rw [hstep, if_neg h1, if_neg h2]⟩
          · intro h
            rw [findZ, if_neg h1, if_neg h2] at h
            exact absurd h (by simp)
          · intro P ctx' h
            rw [findZ, if_neg h1, if_neg h2] at h
            exact absurd h (by simp)



theorem rep_plug {h : Nat → Option Node} : ∀ (ctx : List Frame) (b : BT),
    Rep h (ctxPP ctx) b → RepCtx h b.rootId ctx → Rep h none (plug b ctx)
  | [], b, hr, _ => hr
  | f :: fs, b, hr, hc => by
    obtain ⟨hrec, hsib, hrest⟩ := hc.cons_inv
    refine rep_plug fs (frameNode f b) ?_ ?_
    · cases hd : f.dir
      · rw [show frameNode f b = .node f.id f.sib f.key f.val b by simp [frameNode, hd]]
        refine Rep.node ?_ hsib hr
        rw [hrec, hd]; simp
      · rw [show frameNode f b = .node f.id b f.key f.val f.sib by simp [frameNode, hd]]
        refine Rep.node ?_ hr hsib
        rw [hrec, hd]; simp
    · rw [frameNode_rootId]; exact hrest

theorem topRootId_plug : ∀ (ctx : List Frame) (b : BT),
    topRootId b ctx = (plug b ctx).rootId
  | [], _ => rfl
  | f :: fs, b => topRootId_plug fs (frameNode f b)

/-- A focused invariant yields the whole-tree invariant for the rebuilt
tree. -/
theorem TreeRepAt.plugRep {t : SplayTree} {b : BT} {ctx : List Frame}
    (H : TreeRepAt t b ctx) : TreeRep t (plug b ctx) := by
  refine ⟨rep_plug ctx b H.rep H.rctx, RepCtx.nil, ?_, ?_, ?_⟩
  · rw [H.root, topRootId_plug]
    rfl
  · rw [idsM_plug]
    simpa [ctxIdsM] using H.nodup
  · intro j hj
    refine H.bound j ?_
    rw [idsM_plug] at hj
    simpa [ctxIdsM] using hj

theorem Rep.root_parent {h : Nat → Option Node} {pp : Option Nat} {b : BT} {j : Nat}
    (hr : Rep h pp b) (hj : b.rootId = some j) : ∀ n, h j = some n → n.parent = pp := by
  cases b with
  | nil => simp [BT.rootId] at hj
  | node i l k v r =>
    simp only [BT.rootId, Option.some_inj] at hj
    subst hj
    obtain ⟨hrec, -, -⟩ := hr.node_inv
    intro n hn
    rw [hrec] at hn
    injection hn with hn
    rw [← hn]

/-- Inside a represented subtree, every non-root node is referenced by
exactly one child pointer of its parent. -/
theorem Rep.parent_ok {h : Nat → Option Node} : ∀ {pp : Option Nat} {b : BT},
    Rep h pp b → b.idsM.Nodup →
    ∀ j ∈ b.idsM, b.rootId ≠ some j →
      ∀ n, h j = some n → ∃ p pn, n.parent = some p ∧ h p = some pn ∧
        ((pn.left = some j ∧ pn.right ≠ some j) ∨
         (pn.right = some j ∧ pn.left ≠ some j)) := by
  intro pp b hr
  induction hr with
  | nil => intro _ j hj; simp [idsM_nil] at hj
  | @node pp i l r k v hrec hl hr2 ihl ihr =>
    intro hnd j hj hne n hn
    rw [idsM_node] at hnd hj
    have hin : i ∉ l.idsM + r.idsM := (Multiset.nodup_cons.1 hnd).1
    have hnd2 := (Multiset.nodup_cons.1 hnd).2
    have hndl := (Multiset.nodup_add.1 hnd2).1
    have hndr := (Multiset.nodup_add.1 hnd2).2.1
    have hdisj := (Multiset.nodup_add.1 hnd2).2.2
    rcases Multiset.mem_cons.1 hj with rfl | hj2
    · exact absurd rfl hne
    rcases Multiset.mem_add.1 hj2 with hjl | hjr
    · by_cases hroot : l.rootId = some j
      · refine ⟨i, ⟨k, v, l.rootId, r.rootId, pp⟩, hl.root_parent hroot n hn, hrec, ?_⟩
        refine Or.inl ⟨hroot.symm ▸ rfl, ?_⟩
        intro hc
        exact Multiset.disjoint_left.1 hdisj hjl (mem_idsM_root hc)
      · exact ihl hndl j hjl hroot n hn
    · by_cases hroot : r.rootId = some j
      · refine ⟨i, ⟨k, v, l.rootId, r.rootId, pp⟩, hr2.root_parent hroot n hn, hrec, ?_⟩
        refine Or.inr ⟨hroot.symm ▸ rfl, ?_⟩
        intro hc
        exact Multiset.disjoint_left.1 hdisj (mem_idsM_root hc) hjr
      · exact ihr hndr j hjr hroot n hn

/-- The whole-tree invariant implies the spec's parent-pointer
consistency over the tree's addresses. -/
theorem TreeRep.parentConsistent {t : SplayTree} {bt : BT}
    (H : TreeRep t bt) : ParentConsistent t bt.idsM := by
  have hnd : bt.idsM.Nodup := by simpa [ctxIdsM] using H.nodup
  have hroot : t.root = bt.rootId := by
    have := H.root
    simpa [topRootId] using this
  constructor
  · intro r n hr hn
    rw [hroot] at hr
    exact H.rep.root_parent hr n hn
  · intro i hi hir n hn
    refine H.rep.parent_ok hnd i hi ?_ n hn
    intro hc
    exact hir (by rw [hroot, hc])

theorem ctx_len_le_nextId {t : SplayTree} {X : BT} {ctx : List Frame}
    (H : TreeRepAt t X ctx) : ctx.length ≤ t.nextId := by
  have h1 := ctx_length_le_card ctx
  have h2 : (X.idsM + ctxIdsM ctx).card ≤ t.nextId := card_le_of_bound H.nodup H.bound
  rw [Multiset.card_add] at h2
  omega

theorem TreeRep.size_fuel {t : SplayTree} {bt : BT} (H : TreeRep t bt) :
    bt.size + 1 ≤ t.nextId + 1 := by
  have h2 : (bt.idsM + ctxIdsM []).card ≤ t.nextId := card_le_of_bound H.nodup H.bound
  rw [size_card]
  simp only [ctxIdsM, Multiset.card_add] at h2
  omega

theorem TreeRep.root_eq {t : SplayTree} {bt : BT} (H : TreeRep t bt) :
    t.root = bt.rootId := by
  have := H.root
  simpa [topRootId] using this

/-- `search` on a key whose descent falls off an empty root: the tree is
returned unchanged with a `None` result. -/
theorem search_empty {t : SplayTree} {bt : BT} {k : Int} (H : TreeRep t bt)
    (hf : findZ k bt [] = .missRoot) : t.search k = (t, none) := by
  have hd := ((descend_spec k bt [] t (t.nextId + 1) H H.size_fuel).2.1) hf
  simp only [ctxPP] at hd
  rw [SplayTree.search, H.root_eq, hd]

/-- `search` on a present key: the matched node is splayed to the root
and returned. -/
theorem search_found {t : SplayTree} {bt X : BT} {ctx : List Frame} {k : Int}
    (H : TreeRep t bt) (hf : findZ k bt [] = .found X ctx) :
    ∃ i, X.rootId = some i ∧ (t.search k).2 = some i ∧
      TreeRep (t.search k).1 (splayF X ctx) ∧ (t.search k).1.nextId = t.nextId := by
  obtain ⟨HX, i, hi, hd⟩ :=
    (descend_spec k bt [] t (t.nextId + 1) H H.size_fuel).1 X ctx hf
  simp only [ctxPP] at hd
  have hsr : t.search k = (t.splay i, some i) := by
    rw [SplayTree.search, H.root_eq, hd]
  have hloop := splayLoop_spec ctx X i t HX hi t.nextId (ctx_len_le_nextId HX)
  rw [hsr]
  exact ⟨i, hi, rfl, hloop.1, hloop.2.1⟩

/-- `search` on an absent key over a nonempty tree: the last visited node
is splayed to the root and `None` is returned. -/
theorem search_miss {t : SplayTree} {bt P : BT} {ctx : List Frame} {k : Int}
    (H : TreeRep t bt) (hf : findZ k bt [] = .miss P ctx) :
    ∃ pid, P.rootId = some pid ∧ (t.search k).2 = none ∧
      TreeRep (t.search k).1 (splayF P ctx) ∧ (t.search k).1.nextId = t.nextId := by
  obtain ⟨HP, pid, hpid, hd⟩ :=
    (descend_spec k bt [] t (t.nextId + 1) H H.size_fuel).2.2 P ctx hf
  simp only [ctxPP] at hd
  have hsr : t.search k = (t.splay pid, none) := by
    rw [SplayTree.search, H.root_eq, hd]
  have hloop := splayLoop_spec ctx P pid t HP hpid t.nextId (ctx_len_le_nextId HP)
  rw [hsr]
  exact ⟨pid, hpid, rfl, hloop.1, hloop.2.1⟩

/-- `insert` into an empty tree creates the root node. -/
theorem insert_empty {t : SplayTree} {k v : Int} (H : TreeRep t .nil) :
    TreeRep (t.insert k v) (.node t.nextId .nil k v .nil) ∧
      (t.insert k v).nextId = t.nextId + 1 := by
  have hroot : t.root = none := by simpa [BT.rootId] using H.root_eq
  simp only [SplayTree.insert, hroot]
  refine ⟨⟨?_, RepCtx.nil, ?_, ?_, ?_⟩, trivial⟩
  · refine Rep.node ?_ Rep.nil Rep.nil
    simp [BT.rootId, ctxPP]
  · rfl
  · simp [idsM_node, idsM_nil, ctxIdsM]
  · intro j hj
    have hj' : j = t.nextId := by
      simpa [idsM_node, idsM_nil, ctxIdsM] using hj
    subst hj'
    exact Nat.lt_succ_self _



theorem setValRoot_idsM : ∀ (X : BT) (v : Int), (X.setValRoot v).idsM = X.idsM
  | .nil, _ => rfl
  | .node _ _ _ _ _, _ => rfl

/-- `insert` on a present key: the node's value is overwritten in place
(no allocation) and the node is splayed to the root. -/
theorem insert_found {t : SplayTree} {bt X : BT} {ctx : List Frame} {k v : Int}
    (H : TreeRep t bt) (hf : findZ k bt [] = .found X ctx) :
    TreeRep (t.insert k v) (splayF (X.setValRoot v) ctx) ∧
      (t.insert k v).nextId = t.nextId := by
  obtain ⟨HX, i, hi, hd⟩ :=
    (descend_spec k bt [] t (t.nextId + 1) H H.size_fuel).1 X ctx hf
  simp only [ctxPP] at hd
  have hins : t.insert k v = SplayTree.splay { t with heap := setVal t.heap i v } i := by
    cases bt with
    | nil => simp [findZ] at hf
    | node rb l0 k0 v0 r0 =>
      have hroot : t.root = some rb := by simpa [BT.rootId] using H.root_eq
      rw [show (BT.node rb l0 k0 v0 r0).rootId = some rb from rfl] at hd
      simp only [SplayTree.insert, hroot, hd]
  cases X with
  | nil => simp [BT.rootId] at hi
  | node i2 l k0 v0 r =>
    simp only [BT.rootId, Option.some_inj] at hi
    subst hi
    obtain ⟨hx, hll, hrr⟩ := HX.rep.node_inv
    have hnd := HX.nodup
    rw [idsM_node] at hnd
    have hobt := Multiset.nodup_add.1 hnd
    have hiLR : i2 ∉ l.idsM + r.idsM := (Multiset.nodup_cons.1 hobt.1).1
    have hdisj := hobt.2.2
    have hiC : i2 ∉ ctxIdsM ctx :=
      Multiset.disjoint_left.1 hdisj (Multiset.mem_cons_self _ _)
    have HT2 : TreeRepAt { t with heap := setVal t.heap i2 v } (.node i2 l k0 v r) ctx := by
      refine ⟨?_, ?_, ?_, ?_, ?_⟩
      · refine Rep.node ?_ ?_ ?_
        · show setVal t.heap i2 v i2 = _
          rw [setVal_same, hx]
          rfl
        · refine hll.monoHeap ?_
          intro j hj
          refine setVal_ne _ _ _ ?_
          intro hc
          exact hiLR (hc ▸ Multiset.mem_add.2 (Or.inl hj))
        · refine hrr.monoHeap ?_
          intro j hj
          refine setVal_ne _ _ _ ?_
          intro hc
          exact hiLR (hc ▸ Multiset.mem_add.2 (Or.inr hj))
      · refine HX.rctx.monoCtx ?_
        intro j hj
        refine setVal_ne _ _ _ ?_
        intro hc
        exact hiC (hc ▸ hj)
      · show t.root = _
        rw [HX.root]
        exact topRootId_congr
          (show (BT.node i2 l k0 v0 r).rootId = (BT.node i2 l k0 v r).rootId from rfl) ctx
      · show ((BT.node i2 l k0 v r).idsM + ctxIdsM ctx).Nodup
        rw [idsM_node]
        exact hnd
      · intro j hj
        refine HX.bound j ?_
        rw [idsM_node] at hj
        rw [idsM_node]
        exact hj
    have hlen2 := ctx_len_le_nextId HT2
    have hloop := splayLoop_spec ctx (.node i2 l k0 v r) i2 _ HT2 rfl t.nextId hlen2
    rw [hins]
    exact ⟨hloop.1, hloop.2.1⟩

/-- `insert` on an absent key, where the descent fell off to the left of
the last visited node: a fresh node is linked as that node's left child
and splayed to the root. -/
theorem insert_missL {t : SplayTree} {bt pl pr : BT} {pid : Nat} {ctx : List Frame}
    {k v pk pv : Int} (H : TreeRep t bt)
    (hf : findZ k bt [] = .miss (.node pid pl pk pv pr) ctx)
    (hkp : k < pk) (hpl : pl = .nil) :
    TreeRep (t.insert k v)
      (splayF (.node t.nextId .nil k v .nil) (⟨true, pid, pk, pv, pr⟩ :: ctx)) ∧
      (t.insert k v).nextId = t.nextId + 1 := by
  subst hpl
  obtain ⟨HP, pidw, hpid, hd⟩ :=
    (descend_spec k bt [] t (t.nextId + 1) H H.size_fuel).2.2 _ ctx hf
  simp only [BT.rootId, Option.some_inj] at hpid
  subst hpid
  simp only [ctxPP] at hd
  obtain ⟨hp, -, hpr⟩ := HP.rep.node_inv
  have hblt : ∀ j ∈ (BT.node pid BT.nil pk pv pr).idsM + ctxIdsM ctx, j < t.nextId :=
    HP.bound
  have hpidlt : pid < t.nextId := hblt pid (by simp [idsM_node])
  have hnd := HP.nodup
  rw [idsM_node, idsM_nil] at hnd
  have hobt := Multiset.nodup_add.1 hnd
  have hpidPR : pid ∉ (0 : Multiset Nat) + pr.idsM := (Multiset.nodup_cons.1 hobt.1).1
  have hdisj := hobt.2.2
  have hpidC : pid ∉ ctxIdsM ctx :=
    Multiset.disjoint_left.1 hdisj (Multiset.mem_cons_self _ _)
  have hins : t.insert k v = SplayTree.splay
      { heap := setLeft (fun j => if j = t.nextId
          then some ⟨k, v, none, none, some pid⟩ else t.heap j) pid (some t.nextId),
        root := t.root, nextId := t.nextId + 1 } t.nextId := by
    cases bt with
    | nil => simp [findZ] at hf
    | node rb l0 k0 v0 r0 =>
      have hroot : t.root = some rb := by simpa [BT.rootId] using H.root_eq
      rw [show (BT.node rb l0 k0 v0 r0).rootId = some rb from rfl] at hd
      simp only [SplayTree.insert, hroot, hd, hp]
      rw [if_pos hkp]
  have HT2 : TreeRepAt
      { heap := setLeft (fun j => if j = t.nextId
          then some ⟨k, v, none, none, some pid⟩ else t.heap j) pid (some t.nextId),
        root := t.root, nextId := t.nextId + 1 }
      (.node t.nextId .nil k v .nil) (⟨true, pid, pk, pv, pr⟩ :: ctx) := by
    refine ⟨?_, ?_, ?_, ?_, ?_⟩
    · refine Rep.node ?_ Rep.nil Rep.nil
      show setLeft (fun j => if j = t.nextId
          then some (⟨k, v, none, none, some pid⟩ : Node) else t.heap j)
          pid (some t.nextId) t.nextId
        = some ⟨k, v, none, none, some pid⟩
      refine (setLeft_ne _ _ _ (Ne.symm hpidlt.ne)).trans ?_
      simp
    · refine RepCtx.cons ?_ ?_ ?_
      · show setLeft (fun j => if j = t.nextId
            then some (⟨k, v, none, none, some pid⟩ : Node) else t.heap j)
            pid (some t.nextId) pid
          = some ⟨pk, pv, some t.nextId, pr.rootId, ctxPP ctx⟩
        refine (setLeft_same _ _ _).trans ?_
        rw [if_neg hpidlt.ne, hp]
        rfl
      · refine hpr.monoHeap ?_
        intro j hj
        have hjlt : j < t.nextId := hblt j (by simp [idsM_node, hj])
        have hjp : j ≠ pid := by
          intro hc
          exact hpidPR (hc ▸ Multiset.mem_add.2 (Or.inr hj))
        show setLeft (fun j2 => if j2 = t.nextId
            then some (⟨k, v, none, none, some pid⟩ : Node) else t.heap j2)
            pid (some t.nextId) j = t.heap j
        refine (setLeft_ne _ _ _ hjp).trans ?_
        simp [hjlt.ne]
      · refine HP.rctx.monoCtx ?_
        intro j hj
        have hjlt : j < t.nextId := hblt j (Multiset.mem_add.2 (Or.inr hj))
        have hjp : j ≠ pid := fun hc => hpidC (hc ▸ hj)
        show setLeft (fun j2 => if j2 = t.nextId
            then some (⟨k, v, none, none, some pid⟩ : Node) else t.heap j2)
            pid (some t.nextId) j = t.heap j
        refine (setLeft_ne _ _ _ hjp).trans ?_
        simp [hjlt.ne]
    · show t.root = _
      rw [HP.root]
      show topRootId (BT.node pid BT.nil pk pv pr) ctx
        = topRootId (frameNode ⟨true, pid, pk, pv, pr⟩ (BT.node t.nextId BT.nil k v BT.nil)) ctx
      exact topRootId_congr (by simp [frameNode, BT.rootId]) ctx
    · show ((BT.node t.nextId BT.nil k v BT.nil).idsM
        + ctxIdsM (⟨true, pid, pk, pv, pr⟩ :: ctx)).Nodup
      rw [idsM_node, idsM_nil, ctxIdsM_cons]
      show (t.nextId ::ₘ (0 + 0) + (pid ::ₘ (pr.idsM + ctxIdsM ctx))).Nodup
      have heq : (t.nextId ::ₘ (0 + 0) + (pid ::ₘ (pr.idsM + ctxIdsM ctx)) : Multiset Nat)
          = t.nextId ::ₘ ((pid ::ₘ ((0 : Multiset Nat) + pr.idsM)) + ctxIdsM ctx) := by
        simp [← Multiset.singleton_add, add_comm, add_left_comm, add_assoc]
      rw [heq, Multiset.nodup_cons]
      constructor
      · intro hc
        have := hblt t.nextId (by simpa [idsM_node, idsM_nil] using hc)
        omega
      · simpa [idsM_node, idsM_nil] using HP.nodup
    · intro j hj
      show j < t.nextId + 1
      rw [idsM_node, idsM_nil, ctxIdsM_cons] at hj
      rcases Multiset.mem_add.1 hj with hj1 | hj2
      · have : j = t.nextId := by simpa using hj1
        omega
      · rcases Multiset.mem_cons.1 hj2 with rfl | hj3
        · omega
        · rcases Multiset.mem_add.1 hj3 with hj4 | hj5
          · have := hblt j (by simp [idsM_node, hj4])
            omega
          · have := hblt j (Multiset.mem_add.2 (Or.inr hj5))
            omega
  have hloop := splayLoop_spec (⟨true, pid, pk, pv, pr⟩ :: ctx)
    (.node t.nextId .nil k v .nil) t.nextId _ HT2 rfl
    (t.nextId + 1) (ctx_len_le_nextId HT2)
  rw [hins]
  exact ⟨hloop.1, hloop.2.1⟩



/-- `insert` on an absent key, where the descent fell off to the right of
the last visited node: a fresh node is linked as that node's right child
and splayed to the root. -/
theorem insert_missR {t : SplayTree} {bt pl : BT} {pid : Nat} {ctx : List Frame}
    {k v pk pv : Int} (H : TreeRep t bt)
    (hf : findZ k bt [] = .miss (.node pid pl pk pv .nil) ctx)
    (hkp : pk < k) :
    TreeRep (t.insert k v)
      (splayF (.node t.nextId .nil k v .nil) (⟨false, pid, pk, pv, pl⟩ :: ctx)) ∧
      (t.insert k v).nextId = t.nextId + 1 := by
  obtain ⟨HP, pidw, hpid, hd⟩ :=
    (descend_spec k bt [] t (t.nextId + 1) H H.size_fuel).2.2 _ ctx hf
  simp only [BT.rootId, Option.some_inj] at hpid
  subst hpid
  simp only [ctxPP] at hd
  obtain ⟨hp, hpll, -⟩ := HP.rep.node_inv
  have hblt : ∀ j ∈ (BT.node pid pl pk pv BT.nil).idsM + ctxIdsM ctx, j < t.nextId :=
    HP.bound
  have hpidlt : pid < t.nextId := hblt pid (by simp [idsM_node])
  have hnd := HP.nodup
  rw [idsM_node, idsM_nil] at hnd
  have hobt := Multiset.nodup_add.1 hnd
  have hpidPL : pid ∉ pl.idsM + (0 : Multiset Nat) := (Multiset.nodup_cons.1 hobt.1).1
  have hdisj := hobt.2.2
  have hpidC : pid ∉ ctxIdsM ctx :=
    Multiset.disjoint_left.1 hdisj (Multiset.mem_cons_self _ _)
  have hins : t.insert k v = SplayTree.splay
      { heap := setRight (fun j => if j = t.nextId
          then some ⟨k, v, none, none, some pid⟩ else t.heap j) pid (some t.nextId),
        root := t.root, nextId := t.nextId + 1 } t.nextId := by
    cases bt with
    | nil => simp [findZ] at hf
    | node rb l0 k0 v0 r0 =>
      have hroot : t.root = some rb := by simpa [BT.rootId] using H.root_eq
      rw [show (BT.node rb l0 k0 v0 r0).rootId = some rb from rfl] at hd
      simp only [SplayTree.insert, hroot, hd, hp]
      rw [if_neg (not_lt.2 (le_of_lt hkp))]
  have HT2 : TreeRepAt
      { heap := setRight (fun j => if j = t.nextId
          then some ⟨k, v, none, none, some pid⟩ else t.heap j) pid (some t.nextId),
        root := t.root, nextId := t.nextId + 1 }
      (.node t.nextId .nil k v .nil) (⟨false, pid, pk, pv, pl⟩ :: ctx) := by
    refine ⟨?_, ?_, ?_, ?_, ?_⟩
    · refine Rep.node ?_ Rep.nil Rep.nil
      show setRight (fun j => if j = t.nextId
          then some (⟨k, v, none, none, some pid⟩ : Node) else t.heap j)
          pid (some t.nextId) t.nextId
        = some ⟨k, v, none, none, some pid⟩
      refine (setRight_ne _ _ _ (Ne.symm hpidlt.ne)).trans ?_
      simp
    · refine RepCtx.cons ?_ ?_ ?_
      · show setRight (fun j => if j = t.nextId
            then some (⟨k, v, none, none, some pid⟩ : Node) else t.heap j)
            pid (some t.nextId) pid
          = some ⟨pk, pv, pl.rootId, some t.nextId, ctxPP ctx⟩
        refine (setRight_same _ _ _).trans ?_
        rw [if_neg hpidlt.ne, hp]
        rfl
      · refine hpll.monoHeap ?_
        intro j hj
        have hjlt : j < t.nextId := hblt j (by simp [idsM_node, hj])
        have hjp : j ≠ pid := by
          intro hc
          exact hpidPL (hc ▸ Multiset.mem_add.2 (Or.inl hj))
        show setRight (fun j2 => if j2 = t.nextId
            then some (⟨k, v, none, none, some pid⟩ : Node) else t.heap j2)
            pid (some t.nextId) j = t.heap j
        refine (setRight_ne _ _ _ hjp).trans ?_
        simp [hjlt.ne]
      · refine HP.rctx.monoCtx ?_
        intro j hj
        have hjlt : j < t.nextId := hblt j (Multiset.mem_add.2 (Or.inr hj))
        have hjp : j ≠ pid := fun hc => hpidC (hc ▸ hj)
        show setRight (fun j2 => if j2 = t.nextId
            then some (⟨k, v, none, none, some pid⟩ : Node) else t.heap j2)
            pid (some t.nextId) j = t.heap j
        refine (setRight_ne _ _ _ hjp).trans ?_
        simp [hjlt.ne]
    · show t.root = _
      rw [HP.root]
      show topRootId (BT.node pid pl pk pv BT.nil) ctx
        = topRootId (frameNode ⟨false, pid, pk, pv, pl⟩ (BT.node t.nextId BT.nil k v BT.nil)) ctx
      exact topRootId_congr (by simp [frameNode, BT.rootId]) ctx
    · show ((BT.node t.nextId BT.nil k v BT.nil).idsM
        + ctxIdsM (⟨false, pid, pk, pv, pl⟩ :: ctx)).Nodup
      rw [idsM_node, idsM_nil, ctxIdsM_cons]
      show (t.nextId ::ₘ (0 + 0) + (pid ::ₘ (pl.idsM + ctxIdsM ctx))).Nodup
      have heq : (t.nextId ::ₘ (0 + 0) + (pid ::ₘ (pl.idsM + ctxIdsM ctx)) : Multiset Nat)
          = t.nextId ::ₘ ((pid ::ₘ (pl.idsM + (0 : Multiset Nat))) + ctxIdsM ctx) := by
        simp [← Multiset.singleton_add, add_comm, add_left_comm, add_assoc]
      rw [heq, Multiset.nodup_cons]
      constructor
      · intro hc
        have := hblt t.nextId (by simpa [idsM_node, idsM_nil] using hc)
        omega
      · simpa [idsM_node, idsM_nil] using HP.nodup
    · intro j hj
      show j < t.nextId + 1
      rw [idsM_node, idsM_nil, ctxIdsM_cons] at hj
      rcases Multiset.mem_add.1 hj with hj1 | hj2
      · have : j = t.nextId := by simpa using hj1
        omega
      · rcases Multiset.mem_cons.1 hj2 with rfl | hj3
        · omega
        · rcases Multiset.mem_add.1 hj3 with hj4 | hj5
          · have := hblt j (by simp [idsM_node, hj4])
            omega
          · have := hblt j (Multiset.mem_add.2 (Or.inr hj5))
            omega
  have hloop := splayLoop_spec (⟨false, pid, pk, pv, pl⟩ :: ctx)
    (.node t.nextId .nil k v .nil) t.nextId _ HT2 rfl
    (t.nextId + 1) (ctx_len_le_nextId HT2)
  rw [hins]
  exact ⟨hloop.1, hloop.2.1⟩

end Task2

namespace Task2

/-- The pure descent never loses nodes: the tree rebuilt from the
stopping position equals the tree rebuilt from the starting position. -/
theorem findZ_plug_pres (k : Int) : ∀ (X : BT) (ctx : List Frame),
    (∀ X' ctx', findZ k X ctx = .found X' ctx' → plug X' ctx' = plug X ctx) ∧
    (∀ P ctx', findZ k X ctx = .miss P ctx' → plug P ctx' = plug X ctx)
  | .nil, [] => by
    constructor
    · intro X' ctx' h; simp [findZ] at h
    · intro P ctx' h; simp [findZ] at h
  | .nil, f :: cfs => by
    constructor
    · intro X' ctx' h; simp [findZ] at h
    · intro P ctx' h
      rw [findZ] at h
      injection h with h1 h2
      subst h1; subst h2
      rfl
  | .node i l key v r, ctx => by
    constructor
    · intro X' ctx' h
      by_cases h1 : k < key
      · rw [findZ, if_pos h1] at h
        have := (findZ_plug_pres k l (⟨true, i, key, v, r⟩ :: ctx)).1 X' ctx' h
        rw [this, plug_frame_true]
      · by_cases h2 : key < k
        · rw [findZ, if_neg h1, if_pos h2] at h
          have := (findZ_plug_pres k r (⟨false, i, key, v, l⟩ :: ctx)).1 X' ctx' h
          rw [this, plug_frame_false]
        · rw [findZ, if_neg h1, if_neg h2] at h
          injection h with h3 h4
          subst h3; subst h4
          rfl
    · intro P ctx' h
      by_cases h1 : k < key
      · rw [findZ, if_pos h1] at h
        have := (findZ_plug_pres k l (⟨true, i, key, v, r⟩ :: ctx)).2 P ctx' h
        rw [this, plug_frame_true]
      · by_cases h2 : key < k
        · rw [findZ, if_neg h1, if_pos h2] at h
          have := (findZ_plug_pres k r (⟨false, i, key, v, l⟩ :: ctx)).2 P ctx' h
          rw [this, plug_frame_false]
        · rw [findZ, if_neg h1, if_neg h2] at h
          exact absurd h (by simp)

/-- In a run of pairs whose keys are strictly below `k` on the left and
strictly above on the right, exactly one pair carries key `k`. -/
theorem filter_key_mid {A B : List (Int × Int)} {k : Int}
    (hA : ∀ a ∈ A.map Prod.fst, a < k) (hB : ∀ b2 ∈ B.map Prod.fst, k < b2) (w : Int) :
    (A ++ (k, w) :: B).filter (fun p => p.1 == k) = [(k, w)] := by
  have hA0 : A.filter (fun p => p.1 == k) = [] := by
    rw [List.filter_eq_nil_iff]
    intro p hp
    simp only [beq_iff_eq]
    exact ne_of_lt (hA p.1 (List.mem_map_of_mem _ hp))
  have hB0 : B.filter (fun p => p.1 == k) = [] := by
    rw [List.filter_eq_nil_iff]
    intro p hp
    simp only [beq_iff_eq]
    exact ne_of_gt (hB p.1 (List.mem_map_of_mem _ hp))
  rw [List.filter_append, hA0, List.filter_cons]
  simp [hB0]

/-- The heap record at the root of a well-formed tree: it sits where
`root` points, holds the root key, and has no parent. -/
theorem TreeRep.root_node {t : SplayTree} {bt : BT} {i : Nat} {k : Int}
    (H : TreeRep t bt) (hid : bt.rootId = some i) (hk : bt.rootKey = some k) :
    t.root = some i ∧ ∃ n, t.heap i = some n ∧ n.key = k ∧ n.parent = none ∧
      rootKeyOf t = some k := by
  cases bt with
  | nil => simp [BT.rootId] at hid
  | node i2 l k2 v r =>
    have hi : i2 = i := by simpa [BT.rootId] using hid
    subst hi
    have hk2 : k2 = k := by simpa [BT.rootKey] using hk
    subst hk2
    obtain ⟨hx, -, -⟩ := H.rep.node_inv
    have hroot : t.root = some i2 := by
      rw [H.root_eq]; rfl
    refine ⟨hroot, _, hx, rfl, rfl, ?_⟩
    simp [rootKeyOf, hroot, hx]

/-- The empty state represents the empty tree. -/
theorem treeRep_empty : TreeRep SplayTree.empty .nil := by
  refine ⟨Rep.nil, RepCtx.nil, rfl, ?_, ?_⟩
  · simp [idsM_nil, ctxIdsM]
  · intro j hj
    simp [idsM_nil, ctxIdsM] at hj

/-- A single insert into the empty state yields a well-formed one-node
tree. -/
theorem treeRep_single : TreeRep (SplayTree.empty.insert 5 7) (.node 0 .nil 5 7 .nil) := by
  refine ⟨Rep.node rfl Rep.nil Rep.nil, RepCtx.nil, rfl, ?_, ?_⟩
  · simp [idsM_node, idsM_nil, ctxIdsM]
  · intro j hj
    have hj0 : j = 0 := by simpa [idsM_node, idsM_nil, ctxIdsM] using hj
    subst hj0
    exact Nat.zero_lt_one

/-- The concrete two-node state, focused at its right child. -/
theorem treeRepAt_example :
    TreeRepAt exTree2 (.node 0 .nil 5 7 .nil) [⟨false, 1, 3, 4, .nil⟩] := by
  refine ⟨Rep.node rfl Rep.nil Rep.nil, RepCtx.cons rfl Rep.nil RepCtx.nil, rfl, ?_, ?_⟩
  · simp [idsM_node, idsM_nil, ctxIdsM_cons, ctxIdsM]
  · intro j hj
    have : j = 0 ∨ j = 1 := by
      simpa [idsM_node, idsM_nil, ctxIdsM_cons, ctxIdsM] using hj
    rcases this with rfl | rfl
    · show (0 : Nat) < 2
      omega
    · show (1 : Nat) < 2
      omega

end Task2

namespace Task2

/-- Master specification of `insert` on a present key: the value is
overwritten in place, the tree's pairs are otherwise unchanged, no node
is allocated, the updated node ends at the root, and the BST invariant
is preserved. -/
theorem insert_mem_spec {t : SplayTree} {bt : BT} {k v : Int}
    (H : TreeRep t bt) (hbst : bt.specBST) (hmem : k ∈ bt.keys) :
    ∃ (bt' : BT) (i : Nat) (A B : List (Int × Int)) (w : Int),
      TreeRep (t.insert k v) bt' ∧
      bt.inorder = A ++ (k, w) :: B ∧
      bt'.inorder = A ++ (k, v) :: B ∧
      (∀ a ∈ A.map Prod.fst, a < k) ∧ (∀ a ∈ B.map Prod.fst, k < a) ∧
      bt'.specBST ∧
      bt'.rootId = some i ∧ bt'.rootKey = some k ∧ bt'.rootVal = some v ∧
      bt'.idsM = bt.idsM ∧
      (t.insert k v).nextId = t.nextId := by
  obtain ⟨X, ctx, hf⟩ := findZ_found_of_mem k bt [] hbst hmem
  have hspec := findZ_spec k bt [] hbst (by simp [ctxLeftP]) (by simp [ctxRightP])
  obtain ⟨i, l, r, w, A, B, hX, hplug, hmid, hA, hB⟩ := hspec.1 X ctx hf
  subst hX
  obtain ⟨hins, hnext⟩ := @insert_found t bt _ _ k v H hf
  rw [show (BT.node i l k w r).setValRoot v = BT.node i l k v r from rfl] at hins
  obtain ⟨a2, b2, hshape⟩ := splayF_shape ctx i l k v r
  have hpres := (findZ_plug_pres k bt []).1 _ _ hf
  have hbt_in : bt.inorder = A ++ (k, w) :: B := by simpa [plug] using hplug
  have hio : (splayF (BT.node i l k v r) ctx).inorder = A ++ (k, v) :: B := by
    rw [splayF_inorder]; exact hmid v
  refine ⟨splayF (BT.node i l k v r) ctx, i, A, B, w, hins, hbt_in, hio,
    hA, hB, ?_, ?_, ?_, ?_, ?_, hnext⟩
  · rw [specBST_iff_sorted]
    have hkeq : (splayF (BT.node i l k v r) ctx).keys = bt.keys := by
      simp [BT.keys, hio, hbt_in]
    rw [hkeq]
    exact (specBST_iff_sorted bt).1 hbst
  · rw [hshape]; rfl
  · rw [hshape]; rfl
  · rw [hshape]; rfl
  · rw [splayF_idsM, idsM_plug]
    have h2 : (BT.node i l k w r).idsM + ctxIdsM ctx = bt.idsM := by
      rw [← idsM_plug, hpres]
      rfl
    rw [show (BT.node i l k v r).idsM = (BT.node i l k w r).idsM from rfl, h2]

/-- Master specification of `insert` on an absent key: exactly one fresh
node is allocated, carrying `(k, v)`, it is threaded into the in-order
sequence at `k`'s position, hung under the last node visited by the
descent, splayed to the root, and the BST invariant is preserved. -/
theorem insert_notmem_spec {t : SplayTree} {bt : BT} {k v : Int}
    (H : TreeRep t bt) (hbst : bt.specBST) (hnm : k ∉ bt.keys) :
    ∃ (bt' : BT) (A B : List (Int × Int)),
      TreeRep (t.insert k v) bt' ∧
      bt.inorder = A ++ B ∧
      bt'.inorder = A ++ (k, v) :: B ∧
      (∀ a ∈ A.map Prod.fst, a < k) ∧ (∀ a ∈ B.map Prod.fst, k < a) ∧
      bt'.specBST ∧
      bt'.rootId = some t.nextId ∧ bt'.rootKey = some k ∧ bt'.rootVal = some v ∧
      bt'.idsM = t.nextId ::ₘ bt.idsM ∧
      (t.insert k v).nextId = t.nextId + 1 ∧
      (bt ≠ .nil → ∃ (f : Frame) (ctx' : List Frame) (P : BT),
        findZ k bt [] = .miss P ctx' ∧ P.rootId = some f.id ∧
        bt' = splayF (.node t.nextId .nil k v .nil) (f :: ctx') ∧
        descend t.heap k (t.nextId + 1) t.root none = .notFound (some f.id)) := by
  cases hcase : findZ k bt [] with
  | found X ctx => exact absurd (findZ_mem_of_found k bt [] X ctx hcase) hnm
  | missRoot =>
    obtain ⟨hbtnil, -⟩ := findZ_missRoot k bt [] hcase
    subst hbtnil
    obtain ⟨hins, hnext⟩ := @insert_empty t k v H
    refine ⟨.node t.nextId .nil k v .nil, [], [], hins, rfl, rfl,
      by simp, by simp, ?_, rfl, rfl, rfl, ?_, hnext, ?_⟩
    · exact ⟨by simp [BT.keys, BT.inorder], by simp [BT.keys, BT.inorder],
        trivial, trivial⟩
    · simp [idsM_node, idsM_nil]
    · intro hne
      exact absurd rfl hne
  | miss P ctx =>
    have hspec := findZ_spec k bt [] hbst (by simp [ctxLeftP]) (by simp [ctxRightP])
    obtain ⟨A, B, hplug, hA, hB, pid, pl, pr, pk, pv, hP, hkpk, hPplug, hlt, hgt⟩ :=
      hspec.2 P ctx hcase
    subst hP
    have hbt_in : bt.inorder = A ++ B := by simpa [plug] using hplug
    have hbtids : (BT.node pid pl pk pv pr).idsM + ctxIdsM ctx = bt.idsM := by
      rw [← idsM_plug, hPplug]
      rfl
    have hdesc :
        descend t.heap k (t.nextId + 1) t.root none = .notFound (some pid) := by
      obtain ⟨-, pid2, hpid2, hd⟩ :=
        (descend_spec k bt [] t (t.nextId + 1) H H.size_fuel).2.2 _ ctx hcase
      have hpe : pid = pid2 := by simpa [BT.rootId] using hpid2
      subst hpe
      simp only [ctxPP] at hd
      rw [H.root_eq]
      exact hd
    have hsorted : ((A ++ B).map Prod.fst).Sorted (· < ·) := by
      have := (specBST_iff_sorted bt).1 hbst
      rw [BT.keys, hbt_in] at this
      exact this
    rcases lt_or_gt_of_ne hkpk with hkp | hkp
    · obtain ⟨hpl, hmidf⟩ := hlt hkp
      subst hpl
      obtain ⟨hins, hnext⟩ := @insert_missL t bt BT.nil pr pid ctx k v pk pv H hcase hkp rfl
      obtain ⟨a2, b2, hshape⟩ :=
        splayF_shape (⟨true, pid, pk, pv, pr⟩ :: ctx) t.nextId .nil k v .nil
      have hio : (splayF (.node t.nextId .nil k v .nil)
          (⟨true, pid, pk, pv, pr⟩ :: ctx)).inorder = A ++ (k, v) :: B := by
        rw [splayF_inorder]
        exact hmidf t.nextId v
      refine ⟨_, A, B, hins, hbt_in, hio, hA, hB, ?_, ?_, ?_, ?_, ?_, hnext, ?_⟩
      · rw [specBST_iff_sorted]
        show ((splayF (.node t.nextId .nil k v .nil)
          (⟨true, pid, pk, pv, pr⟩ :: ctx)).inorder.map Prod.fst).Sorted (· < ·)
        rw [hio]
        exact sorted_insert_mid hA hB hsorted v
      · rw [hshape]; rfl
      · rw [hshape]; rfl
      · rw [hshape]; rfl
      · rw [splayF_idsM, idsM_plug, ← hbtids, ctxIdsM_cons]
        rw [idsM_node, idsM_node, idsM_nil]
        show t.nextId ::ₘ (0 + 0) + (pid ::ₘ (pr.idsM + ctxIdsM ctx))
          = t.nextId ::ₘ (pid ::ₘ ((BT.nil.idsM : Multiset Nat) + pr.idsM) + ctxIdsM ctx)
        rw [idsM_nil]
        simp [← Multiset.singleton_add, add_comm, add_left_comm, add_assoc]
      · intro hne
        exact ⟨⟨true, pid, pk, pv, pr⟩, ctx, BT.node pid BT.nil pk pv pr, rfl, rfl, rfl, hdesc⟩
    · obtain ⟨hpr, hmidf⟩ := hgt hkp
      subst hpr
      obtain ⟨hins, hnext⟩ := @insert_missR t bt pl pid ctx k v pk pv H hcase hkp
      obtain ⟨a2, b2, hshape⟩ :=
        splayF_shape (⟨false, pid, pk, pv, pl⟩ :: ctx) t.nextId .nil k v .nil
      have hio : (splayF (.node t.nextId .nil k v .nil)
          (⟨false, pid, pk, pv, pl⟩ :: ctx)).inorder = A ++ (k, v) :: B := by
        rw [splayF_inorder]
        exact hmidf t.nextId v
      refine ⟨_, A, B, hins, hbt_in, hio, hA, hB, ?_, ?_, ?_, ?_, ?_, hnext, ?_⟩
      · rw [specBST_iff_sorted]
        show ((splayF (.node t.nextId .nil k v .nil)
          (⟨false, pid, pk, pv, pl⟩ :: ctx)).inorder.map Prod.fst).Sorted (· < ·)
        rw [hio]
        exact sorted_insert_mid hA hB hsorted v
      · rw [hshape]; rfl
      · rw [hshape]; rfl
      · rw [hshape]; rfl
      · rw [splayF_idsM, idsM_plug, ← hbtids, ctxIdsM_cons]
        rw [idsM_node, idsM_node, idsM_nil]
        show t.nextId ::ₘ (0 + 0) + (pid ::ₘ (pl.idsM + ctxIdsM ctx))
          = t.nextId ::ₘ (pid ::ₘ (pl.idsM + (BT.nil.idsM : Multiset Nat)) + ctxIdsM ctx)
        rw [idsM_nil]
        simp [← Multiset.singleton_add, add_comm, add_left_comm, add_assoc]
      · intro hne
        exact ⟨⟨false, pid, pk, pv, pl⟩, ctx, BT.node pid pl pk pv BT.nil, rfl, rfl, rfl, hdesc⟩

end Task2

namespace Task2

/-- Master specification of `search` on a present key: the matched node
is returned and splayed to the root; the stored pairs, the addresses and
`nextId` are unchanged, and the BST invariant is preserved. -/
theorem search_mem_spec {t : SplayTree} {bt : BT} {k : Int}
    (H : TreeRep t bt) (hbst : bt.specBST) (hmem : k ∈ bt.keys) :
    ∃ (bt' : BT) (i : Nat) (w : Int),
      TreeRep (t.search k).1 bt' ∧ (t.search k).2 = some i ∧
      bt'.inorder = bt.inorder ∧ bt'.specBST ∧
      bt'.rootId = some i ∧ bt'.rootKey = some k ∧ bt'.rootVal = some w ∧
      (k, w) ∈ bt.inorder ∧ bt'.idsM = bt.idsM ∧
      (t.search k).1.nextId = t.nextId := by
  obtain ⟨X, ctx, hf⟩ := findZ_found_of_mem k bt [] hbst hmem
  have hspec := findZ_spec k bt [] hbst (by simp [ctxLeftP]) (by simp [ctxRightP])
  obtain ⟨i, l, r, w, A, B, hX, hplug, hmid, hA, hB⟩ := hspec.1 X ctx hf
  subst hX
  obtain ⟨i2, hi2, hres, hrep, hnext⟩ := search_found H hf
  have hie : i = i2 := by simpa [BT.rootId] using hi2
  subst hie
  have hpres := (findZ_plug_pres k bt []).1 _ _ hf
  have hbt_in : bt.inorder = A ++ (k, w) :: B := by simpa [plug] using hplug
  obtain ⟨a2, b2, hshape⟩ := splayF_shape ctx i l k w r
  have hio : (splayF (BT.node i l k w r) ctx).inorder = bt.inorder := by
    rw [splayF_inorder, hpres]
    rfl
  refine ⟨splayF (BT.node i l k w r) ctx, i, w, hrep, hres, hio, ?_, ?_, ?_, ?_, ?_, ?_, hnext⟩
  · rw [specBST_iff_sorted]
    have hkeq : (splayF (BT.node i l k w r) ctx).keys = bt.keys := by
      simp [BT.keys, hio]
    rw [hkeq]
    exact (specBST_iff_sorted bt).1 hbst
  · rw [hshape]; rfl
  · rw [hshape]; rfl
  · rw [hshape]; rfl
  · rw [hbt_in]
    exact List.mem_append_right _ (List.mem_cons_self _ _)
  · rw [splayF_idsM, hpres]
    rfl

/-- Master specification of `search` on an absent key: the result is
`None`; an empty tree is returned untouched; in a nonempty tree the last
node visited by the failed descent is splayed to the root, with the
stored pairs, the addresses and `nextId` unchanged and the BST invariant
preserved. -/
theorem search_notmem_spec {t : SplayTree} {bt : BT} {k : Int}
    (H : TreeRep t bt) (hnm : k ∉ bt.keys) :
    (t.search k).2 = none ∧
    (bt = .nil → t.search k = (t, none)) ∧
    (bt ≠ .nil → ∃ (bt' : BT) (pid : Nat),
      TreeRep (t.search k).1 bt' ∧
      descend t.heap k (t.nextId + 1) t.root none = .notFound (some pid) ∧
      bt'.rootId = some pid ∧
      bt'.inorder = bt.inorder ∧ bt'.idsM = bt.idsM ∧
      (bt.specBST → bt'.specBST) ∧
      (t.search k).1.nextId = t.nextId) := by
  cases hcase : findZ k bt [] with
  | found X ctx => exact absurd (findZ_mem_of_found k bt [] X ctx hcase) hnm
  | missRoot =>
    obtain ⟨hbtnil, -⟩ := findZ_missRoot k bt [] hcase
    have hse := search_empty H hcase
    refine ⟨by rw [hse], fun _ => hse, fun hne => absurd hbtnil hne⟩
  | miss P ctx =>
    obtain ⟨pid, hpid, hres, hrep, hnext⟩ := search_miss H hcase
    have hdesc :
        descend t.heap k (t.nextId + 1) t.root none = .notFound (some pid) := by
      obtain ⟨-, pid2, hpid2, hd⟩ :=
        (descend_spec k bt [] t (t.nextId + 1) H H.size_fuel).2.2 _ ctx hcase
      have hpe : pid = pid2 := by rw [hpid] at hpid2; exact Option.some_inj.1 hpid2
      subst hpe
      simp only [ctxPP] at hd
      rw [H.root_eq]
      exact hd
    have hbtne : bt ≠ .nil := by
      intro hc
      subst hc
      simp [findZ] at hcase
    refine ⟨hres, fun hc => absurd hc hbtne, fun _ => ?_⟩
    cases P with
    | nil => simp [BT.rootId] at hpid
    | node p0 pl pk pv pr =>
      have hpe : p0 = pid := by simpa [BT.rootId] using hpid
      subst hpe
      have hpres := (findZ_plug_pres k bt []).2 _ _ hcase
      obtain ⟨a2, b2, hshape⟩ := splayF_shape ctx p0 pl pk pv pr
      have hio : (splayF (BT.node p0 pl pk pv pr) ctx).inorder = bt.inorder := by
        rw [splayF_inorder, hpres]
        rfl
      refine ⟨splayF (BT.node p0 pl pk pv pr) ctx, p0, hrep, hdesc, ?_, hio, ?_, ?_, hnext⟩
      · rw [hshape]; rfl
      · rw [splayF_idsM, hpres]
        rfl
      · intro hbst
        rw [specBST_iff_sorted]
        have hkeq : (splayF (BT.node p0 pl pk pv pr) ctx).keys = bt.keys := by
          simp [BT.keys, hio]
        rw [hkeq]
        exact (specBST_iff_sorted bt).1 hbst

end Task2

namespace Task2

/-- C1: after `insert(key, value)` or `search(key)` on a well-formed tree
satisfying the BST ordering invariant, every reachable node still has all
left-subtree keys strictly below and all right-subtree keys strictly above
its own key, and no duplicate keys coexist. -/
theorem C1_bst_invariant {t : SplayTree} {bt : BT} (k v : Int)
    (H : TreeRep t bt) (hbst : bt.specBST) :
    (∃ bi, TreeRep (t.insert k v) bi ∧ bi.specBST ∧ bi.keys.Nodup) ∧
    (∃ bs, TreeRep (t.search k).1 bs ∧ bs.specBST ∧ bs.keys.Nodup) := by
  constructor
  · by_cases hmem : k ∈ bt.keys
    · obtain ⟨bi, i, A, B, w, hrep, -, -, -, -, hb, -⟩ := insert_mem_spec H hbst hmem
      exact ⟨bi, hrep, hb, specBST_keys_nodup hb⟩
    · obtain ⟨bi, A, B, hrep, -, -, -, -, hb, -⟩ := insert_notmem_spec H hbst hmem
      exact ⟨bi, hrep, hb, specBST_keys_nodup hb⟩
  · by_cases hmem : k ∈ bt.keys
    · obtain ⟨bs, i, w, hrep, -, -, hb, -⟩ := search_mem_spec H hbst hmem
      exact ⟨bs, hrep, hb, specBST_keys_nodup hb⟩
    · obtain ⟨-, hemp, hne⟩ := search_notmem_spec H hmem
      by_cases hnil : bt = .nil
      · have heq := hemp hnil
        refine ⟨bt, ?_, hbst, specBST_keys_nodup hbst⟩
        rw [show (t.search k).1 = t from by rw [heq]]
        exact H
      · obtain ⟨bs, pid, hrep, -, -, -, -, hbs, -⟩ := hne hnil
        exact ⟨bs, hrep, hbs hbst, specBST_keys_nodup (hbs hbst)⟩

theorem C1_witness :
    ∃ bi, TreeRep ((SplayTree.empty.insert 5 7).insert 3 4) bi ∧
      bi.specBST ∧ bi.keys.Nodup :=
  (C1_bst_invariant 3 4 treeRep_single (by decide)).1

/-- C2: `search(key)` on a key present in a well-formed BST returns the
node holding that key and leaves that node at the root, so the root's key
equals the searched key. -/
theorem C2_search_found_root {t : SplayTree} {bt : BT} {k : Int}
    (H : TreeRep t bt) (hbst : bt.specBST) (hmem : k ∈ bt.keys) :
    ∃ i n, (t.search k).2 = some i ∧ (t.search k).1.heap i = some n ∧ n.key = k ∧
      (t.search k).1.root = some i ∧ rootKeyOf (t.search k).1 = some k := by
  obtain ⟨bt', i, w, hrep, hres, -, -, hrid, hrk, -⟩ := search_mem_spec H hbst hmem
  obtain ⟨hroot, n, hn, hkey, -, hkeyof⟩ := hrep.root_node hrid hrk
  exact ⟨i, n, hres, hn, hkey, hroot, hkeyof⟩

theorem C2_witness :
    ∃ i n, ((SplayTree.empty.insert 5 7).search 5).2 = some i ∧
      ((SplayTree.empty.insert 5 7).search 5).1.heap i = some n ∧ n.key = 5 ∧
      ((SplayTree.empty.insert 5 7).search 5).1.root = some i ∧
      rootKeyOf ((SplayTree.empty.insert 5 7).search 5).1 = some 5 :=
  C2_search_found_root treeRep_single (by decide) (by decide)

/-- C3: after `insert(key, value)` the root's key equals `key` and the BST
invariant holds; a present key is overwritten in place with no allocation,
an absent key allocates exactly one fresh node, hung under the last node
visited by the descent and splayed to the root. -/
theorem C3_insert_postcondition {t : SplayTree} {bt : BT} (k v : Int)
    (H : TreeRep t bt) (hbst : bt.specBST) :
    ∃ bi, TreeRep (t.insert k v) bi ∧ bi.specBST ∧
      bi.rootKey = some k ∧ bi.rootVal = some v ∧
      rootKeyOf (t.insert k v) = some k ∧
      (k ∈ bt.keys → bi.idsM = bt.idsM ∧ (t.insert k v).nextId = t.nextId) ∧
      (k ∉ bt.keys → bi.rootId = some t.nextId ∧ bi.idsM = t.nextId ::ₘ bt.idsM ∧
        (t.insert k v).nextId = t.nextId + 1 ∧
        (bt ≠ .nil → ∃ (f : Frame) (ctx : List Frame) (P : BT),
          findZ k bt [] = .miss P ctx ∧ P.rootId = some f.id ∧
          descend t.heap k (t.nextId + 1) t.root none = .notFound (some f.id) ∧
          bi = splayF (.node t.nextId .nil k v .nil) (f :: ctx))) := by
  by_cases hmem : k ∈ bt.keys
  · obtain ⟨bi, i, A, B, w, hrep, -, -, -, -, hb, hrid, hrk, hrv, hids, hnext⟩ :=
      insert_mem_spec H hbst hmem
    obtain ⟨-, n, -, -, -, hkeyof⟩ := hrep.root_node hrid hrk
    exact ⟨bi, hrep, hb, hrk, hrv, hkeyof, fun _ => ⟨hids, hnext⟩,
      fun hc => absurd hmem hc⟩
  · obtain ⟨bi, A, B, hrep, -, -, -, -, hb, hrid, hrk, hrv, hids, hnext, hmiss⟩ :=
      insert_notmem_spec H hbst hmem
    obtain ⟨-, n, -, -, -, hkeyof⟩ := hrep.root_node hrid hrk
    refine ⟨bi, hrep, hb, hrk, hrv, hkeyof, fun hc => absurd hc hmem,
      fun _ => ⟨hrid, hids, hnext, ?_⟩⟩
    intro hne
    obtain ⟨f, ctx, P, h1, h2, h3, h4⟩ := hmiss hne
    exact ⟨f, ctx, P, h1, h2, h4, h3⟩

theorem C3_witness :
    rootKeyOf ((SplayTree.empty.insert 5 7).insert 3 4) = some 3 := by
  obtain ⟨bi, -, -, -, -, hkeyof, -, -⟩ :=
    C3_insert_postcondition 3 4 treeRep_single (by decide)
  exact hkeyof

/-- C4: `search(key)` on an absent key reports not-found through the
explicit `None` result, never an error; an empty tree is returned
unchanged with no node created, and in a nonempty tree the last node
visited by the failed descent is splayed to the root. -/
theorem C4_search_missing {t : SplayTree} {bt : BT} {k : Int}
    (H : TreeRep t bt) (hnm : k ∉ bt.keys) :
    (t.search k).2 = none ∧
    (bt = .nil → t.search k = (t, none)) ∧
    (bt ≠ .nil → ∃ (pid : Nat) (bs : BT),
      descend t.heap k (t.nextId + 1) t.root none = .notFound (some pid) ∧
      TreeRep (t.search k).1 bs ∧ bs.rootId = some pid ∧
      (t.search k).1.root = some pid ∧
      bs.inorder = bt.inorder ∧ (t.search k).1.nextId = t.nextId) := by
  obtain ⟨h1, h2, h3⟩ := search_notmem_spec H hnm
  refine ⟨h1, h2, ?_⟩
  intro hne
  obtain ⟨bs, pid, hrep, hd, hrid, hio, -, -, hnext⟩ := h3 hne
  refine ⟨pid, bs, hd, hrep, hrid, ?_, hio, hnext⟩
  rw [hrep.root_eq, hrid]

theorem C4_witness : SplayTree.empty.search 42 = (SplayTree.empty, none) :=
  (C4_search_missing treeRep_empty (by decide)).2.1 rfl

/-- C5: the splay loop terminates within the focus's depth: any fuel of at
least the context's length (one unit per zig, two per zig-zig/zig-zag,
each consuming at least that much context) yields the very same state as
exactly depth-many steps, and the focused node ends at the root. -/
theorem C5_splay_terminates {t : SplayTree} {X : BT} {ctx : List Frame} {x : Nat}
    (H : TreeRepAt t X ctx) (hx : X.rootId = some x) :
    (∀ fuel, ctx.length ≤ fuel → splayLoop fuel t x = splayLoop ctx.length t x) ∧
    TreeRepAt (splayLoop ctx.length t x) (splayF X ctx) [] ∧
    (splayF X ctx).rootId = some x ∧
    (splayLoop ctx.length t x).root = some x := by
  have base := splayLoop_spec ctx X x t H hx ctx.length le_rfl
  have hsr : (splayF X ctx).rootId = some x := by
    cases X with
    | nil => simp [BT.rootId] at hx
    | node i l k v r =>
      have hie : i = x := by simpa [BT.rootId] using hx
      subst hie
      obtain ⟨a2, b2, hs⟩ := splayF_shape ctx i l k v r
      rw [hs]
      rfl
  refine ⟨?_, base.1, hsr, ?_⟩
  · intro fuel hf
    exact (splayLoop_spec ctx X x t H hx fuel hf).2.2
  · rw [TreeRep.root_eq base.1, hsr]

theorem C5_witness : (splayLoop 1 exTree2 0).root = some 0 :=
  (C5_splay_terminates treeRepAt_example rfl).2.2.2

/-- C6: parent-pointer consistency after a rotation and after insert and
search: the root's parent reference is absent and every other node is
referenced by exactly one child pointer of its parent. -/
theorem C6_parent_consistency {t1 : SplayTree} {X : BT} {x : Nat} {f : Frame}
    {rest : List Frame} {t2 t3 : SplayTree} {b2 b3 : BT} (k2 v2 k3 : Int)
    (H1 : TreeRepAt t1 X (f :: rest)) (hx : X.rootId = some x)
    (H2 : TreeRep t2 b2) (hb2 : b2.specBST)
    (H3 : TreeRep t3 b3) (hb3 : b3.specBST) :
    ParentConsistent (t1.rotate x) (plug (rotStep X f) rest).idsM ∧
    (∃ bi, TreeRep (t2.insert k2 v2) bi ∧
      ParentConsistent (t2.insert k2 v2) bi.idsM) ∧
    (∃ bs, TreeRep (t3.search k3).1 bs ∧
      ParentConsistent (t3.search k3).1 bs.idsM) := by
  refine ⟨?_, ?_, ?_⟩
  · exact TreeRep.parentConsistent (rotate_spec' H1 hx).1.plugRep
  · by_cases hmem : k2 ∈ b2.keys
    · obtain ⟨bi, i, A, B, w, hrep, -⟩ := insert_mem_spec H2 hb2 hmem
      exact ⟨bi, hrep, hrep.parentConsistent⟩
    · obtain ⟨bi, A, B, hrep, -⟩ := insert_notmem_spec H2 hb2 hmem
      exact ⟨bi, hrep, hrep.parentConsistent⟩
  · by_cases hmem : k3 ∈ b3.keys
    · obtain ⟨bs, i, w, hrep, -⟩ := search_mem_spec H3 hb3 hmem
      exact ⟨bs, hrep, hrep.parentConsistent⟩
    · obtain ⟨-, hemp, hne⟩ := search_notmem_spec H3 hmem
      by_cases hnil : b3 = .nil
      · have heq := hemp hnil
        refine ⟨b3, ?_, ?_⟩
        · rw [show (t3.search k3).1 = t3 from by rw [heq]]
          exact H3
        · rw [show (t3.search k3).1 = t3 from by rw [heq]]
          exact H3.parentConsistent
      · obtain ⟨bs, pid, hrep, -⟩ := hne hnil
        exact ⟨bs, hrep, hrep.parentConsistent⟩

theorem C6_witness :
    ParentConsistent (exTree2.rotate 0)
      (plug (rotStep (BT.node 0 BT.nil 5 7 BT.nil) ⟨false, 1, 3, 4, BT.nil⟩) []).idsM :=
  (C6_parent_consistency 1 1 1 treeRepAt_example rfl treeRep_single (by decide)
    treeRep_single (by decide)).1

/-- C7: `insert(k, v1)` then `insert(k, v2)` leaves exactly one stored
pair with key `k`, holding value `v2` at the root, and the second insert
changes neither the number of stored pairs nor the allocation counter. -/
theorem C7_value_overwrite {t : SplayTree} {bt : BT} (k v1 v2 : Int)
    (H : TreeRep t bt) (hbst : bt.specBST) :
    ∃ bt1 bt2, TreeRep (t.insert k v1) bt1 ∧
      TreeRep ((t.insert k v1).insert k v2) bt2 ∧
      bt2.inorder.filter (fun p => p.1 == k) = [(k, v2)] ∧
      bt2.rootKey = some k ∧ bt2.rootVal = some v2 ∧
      bt2.inorder.length = bt1.inorder.length ∧
      ((t.insert k v1).insert k v2).nextId = (t.insert k v1).nextId := by
  have step1 : ∃ bt1, TreeRep (t.insert k v1) bt1 ∧ bt1.specBST ∧
      ∃ A B, bt1.inorder = A ++ (k, v1) :: B ∧
        (∀ a ∈ A.map Prod.fst, a < k) ∧ (∀ a ∈ B.map Prod.fst, k < a) := by
    by_cases hmem : k ∈ bt.keys
    · obtain ⟨bt1, i, A, B, w, hrep, -, hin2, hA, hB, hb, -⟩ := insert_mem_spec H hbst hmem
      exact ⟨bt1, hrep, hb, A, B, hin2, hA, hB⟩
    · obtain ⟨bt1, A, B, hrep, -, hin2, hA, hB, hb, -⟩ := insert_notmem_spec H hbst hmem
      exact ⟨bt1, hrep, hb, A, B, hin2, hA, hB⟩
  obtain ⟨bt1, hrep1, hb1, A, B, hin1, hA, hB⟩ := step1
  have hmem1 : k ∈ bt1.keys := by
    show k ∈ bt1.inorder.map Prod.fst
    rw [hin1]
    simp
  obtain ⟨bt2, i, A2, B2, w2, hrep2, hin1b, hin2b, hA2, hB2, hb2, -, hrk2, hrv2, -, hnext2⟩ :=
    insert_mem_spec hrep1 hb1 hmem1
  refine ⟨bt1, bt2, hrep1, hrep2, ?_, hrk2, hrv2, ?_, hnext2⟩
  · rw [hin2b]
    exact filter_key_mid hA2 hB2 v2
  · rw [hin2b, hin1b]
    simp

theorem C7_witness :
    (((SplayTree.empty.insert 5 7).insert 2 10).insert 2 20).nextId
      = ((SplayTree.empty.insert 5 7).insert 2 10).nextId := by
  obtain ⟨bt1, bt2, -, -, -, -, -, -, h⟩ := C7_value_overwrite 2 10 20 treeRep_single (by decide)
  exact h

end Task2

namespace Task2

/-- C8: from the pre-seeded tree (`__init__` inserts keys 0 and 1),
evaluating `fibonacci_splay(5)` returns 5 and leaves the tree storing
values `[0, 1, 1, 2, 3, 5]` for keys 0..5; a subsequent `search(5)`
returns the node with value 5 and leaves the root's key equal to 5. -/
theorem C8_fib_scenario :
    (fibonacci_splay 5 SplayTree.init).1 = 5 ∧
    ((decodeBT (fibonacci_splay 5 SplayTree.init).2.heap 16
        (fibonacci_splay 5 SplayTree.init).2.root).map BT.inorder)
      = some [(0, 0), (1, 1), (2, 1), (3, 2), (4, 3), (5, 5)] ∧
    (((fibonacci_splay 5 SplayTree.init).2.search 5).2).map
        (getVal ((fibonacci_splay 5 SplayTree.init).2.search 5).1) = some 5 ∧
    rootKeyOf ((fibonacci_splay 5 SplayTree.init).2.search 5).1 = some 5 := by
  refine ⟨rfl, rfl, rfl, rfl⟩

/-- C9 counterexample: inserting keys 3, 1, 2 into a newly constructed
`SplayTree` (whose `__init__` pre-seeds keys 0 and 1) yields the in-order
keys `[0, 1, 2, 3]`, not `[1, 2, 3]` as the spec's scenario states. -/
theorem C9_counterexample :
    ((decodeBT (((SplayTree.init.insert 3 3).insert 1 1).insert 2 2).heap 8
        (((SplayTree.init.insert 3 3).insert 1 1).insert 2 2).root).map BT.keys)
      = some [0, 1, 2, 3] ∧
    ¬(((decodeBT (((SplayTree.init.insert 3 3).insert 1 1).insert 2 2).heap 8
        (((SplayTree.init.insert 3 3).insert 1 1).insert 2 2).root).map BT.keys)
      = some [1, 2, 3]) := by
  refine ⟨rfl, by decide⟩

/-- C9 (amended): inserting keys 3, 1, 2 into a newly constructed
`SplayTree` leaves the root's key equal to 2 (the last inserted and
splayed key), and the in-order keys are `[0, 1, 2, 3]` — the three
inserted keys together with the constructor's pre-seeded keys 0 and 1. -/
theorem C9_amended :
    rootKeyOf (((SplayTree.init.insert 3 3).insert 1 1).insert 2 2) = some 2 ∧
    ((decodeBT (((SplayTree.init.insert 3 3).insert 1 1).insert 2 2).heap 8
        (((SplayTree.init.insert 3 3).insert 1 1).insert 2 2).root).map BT.keys)
      = some [0, 1, 2, 3] := by
  refine ⟨rfl, rfl⟩

end Task2

/-- C10 counterexample: with the module-global array `[1, 1]` and a
distinct argument list `[2, 0]` (some identity 7), the cached range sum
still coincides with `sum(a[0:2])` over the argument list — refuting the
claim's "only when `a` is that global array ... not over `a`'s". -/
theorem C10_counterexample :
    (Task1.range_sum_with_cache [1, 1] [] 7 0 1).1
      = Task1.range_sum_no_cache [2, 0] 0 1 ∧
    ([2, 0] : List Int) ≠ [1, 1] := by
  refine ⟨rfl, by decide⟩

/-- C10 (amended): `range_sum_with_cache` always computes the slice sum
of the module-global array (the cache key's `array_id` never influences
the value, provided every cached entry is consistent with the current
global, as after a cache clear), and it keeps the cache consistent. -/
theorem C10_amended {g : List Int} {c : Task1.Cache} {aid L R : Nat}
    (hc : Task1.cacheConsistent g c) :
    (Task1.range_sum_with_cache g c aid L R).1 = Task1.sliceSum g L R ∧
    Task1.cacheConsistent g (Task1.range_sum_with_cache g c aid L R).2 := by
  show (Task1._cached_sum g c aid L R).1 = Task1.sliceSum g L R ∧
    Task1.cacheConsistent g (Task1._cached_sum g c aid L R).2
  rw [Task1._cached_sum]
  cases hl : List.lookup (aid, L, R) c with
  | some v =>
    exact ⟨hc aid L R v hl, hc⟩
  | none =>
    refine ⟨rfl, ?_⟩
    intro aid2 L2 R2 v2 hv2
    rw [List.lookup] at hv2
    by_cases he : (aid2, L2, R2) = (aid, L, R)
    · rw [show ((aid2, L2, R2) == (aid, L, R)) = true from beq_iff_eq.2 he] at hv2
      simp only [Prod.mk.injEq] at he
      obtain ⟨-, rfl, rfl⟩ := he
      simpa using hv2.symm
    · rw [show ((aid2, L2, R2) == (aid, L, R)) = false from beq_eq_false_iff_ne.2 he] at hv2
      exact hc aid2 L2 R2 v2 hv2

theorem C10_witness :
    (Task1.range_sum_with_cache [1, 2, 3] [] 0 0 1).1 = Task1.sliceSum [1, 2, 3] 0 1 :=
  (C10_amended (fun aid L R v hv => by simp [List.lookup] at hv)).1
